import Mathlib

/-!
Verification development for the streaming-server core of `table-faker`
(`tablefaker/streaming_server.py`).

The Python source is shallowly embedded below:

* Python `dict`s are modelled as association lists (`dget` / `dset` / `ddel`)
  with *insert-at-end-on-new-key, update-in-place-on-existing-key* semantics,
  which matches CPython's insertion-ordered dictionaries.
* Python `set`s are modelled as duplicate-free lists in insertion order
  (`insertSet`); the verified properties never depend on iteration order.
* Machine integers are `Int` / `Nat` (Python integers are unbounded).
* Code that can raise is modelled by explicit outcome parameters or by
  `Option`, and every `try/except` block is modelled so that mutations made
  before the raising statement persist, exactly as in the source.
-/

namespace TF

/-! ## Association-list model of Python dicts -/

/-- Python `d[k]` lookup returning `none` when the key is absent
(`k in d` is `(dget d k).isSome`). -/
def dget {K V : Type} [DecidableEq K] : List (K × V) → K → Option V
  | [], _ => none
  | (k', v') :: rest, k => if k' = k then some v' else dget rest k

/-- Python `d[k] = v`: update in place when the key exists, append otherwise. -/
def dset {K V : Type} [DecidableEq K] : List (K × V) → K → V → List (K × V)
  | [], k, v => [(k, v)]
  | (k', v') :: rest, k, v =>
    if k' = k then (k, v) :: rest else (k', v') :: dset rest k v

/-- Python `del d[k]` (for a present key; a no-op otherwise, callers guard). -/
def ddel {K V : Type} [DecidableEq K] : List (K × V) → K → List (K × V)
  | [], _ => []
  | (k', v') :: rest, k => if k' = k then rest else (k', v') :: ddel rest k

/-- Python `s.add(x)` on an insertion-ordered set model. -/
def insertSet {K : Type} [DecidableEq K] (l : List K) (x : K) : List K :=
  if x ∈ l then l else l ++ [x]

theorem dget_dset_self {K V : Type} [DecidableEq K]
    (l : List (K × V)) (k : K) (v : V) : dget (dset l k v) k = some v := by
  induction l with
  | nil => simp [dget, dset]
  | cons kv rest ih =>
    obtain ⟨k', v'⟩ := kv
    by_cases h : k' = k <;> simp [dget, dset, h, ih]

theorem dget_dset_ne {K V : Type} [DecidableEq K]
    (l : List (K × V)) (k k₀ : K) (v : V) (h : k ≠ k₀) :
    dget (dset l k v) k₀ = dget l k₀ := by
  induction l with
  | nil => simp [dget, dset, h]
  | cons kv rest ih =>
    obtain ⟨k', v'⟩ := kv
    by_cases h' : k' = k
    · subst h'; simp [dget, dset, h]
    · simp only [dset, if_neg h']
      by_cases h₀ : k' = k₀ <;> simp [dget, h₀, ih]

theorem dget_eq_none_of_not_mem {K V : Type} [DecidableEq K]
    (l : List (K × V)) (k : K) (h : k ∉ l.map Prod.fst) : dget l k = none := by
  induction l with
  | nil => simp [dget]
  | cons kv rest ih =>
    obtain ⟨k', v'⟩ := kv
    simp only [List.map_cons, List.mem_cons] at h
    push_neg at h
    have hne : ¬ k' = k := fun hk => h.1 hk.symm
    simp [dget, hne, ih h.2]

theorem dget_ddel_self {K V : Type} [DecidableEq K]
    (l : List (K × V)) (k : K) (hnd : (l.map Prod.fst).Nodup) :
    dget (ddel l k) k = none := by
  induction l with
  | nil => simp [ddel, dget]
  | cons kv rest ih =>
    obtain ⟨k', v'⟩ := kv
    simp only [List.map_cons, List.nodup_cons] at hnd
    by_cases h : k' = k
    · subst h
      simp only [ddel, if_pos rfl]
      exact dget_eq_none_of_not_mem rest k' hnd.1
    · simp [ddel, if_neg h, dget, h, ih hnd.2]

theorem dget_ddel_ne {K V : Type} [DecidableEq K]
    (l : List (K × V)) (k k₀ : K) (h : k ≠ k₀) :
    dget (ddel l k) k₀ = dget l k₀ := by
  induction l with
  | nil => simp [ddel]
  | cons kv rest ih =>
    obtain ⟨k', v'⟩ := kv
    by_cases h' : k' = k
    · subst h'; simp [ddel, dget, h]
    · simp only [ddel, if_neg h']
      by_cases h₀ : k' = k₀ <;> simp [dget, h₀, ih]

/-! ## `CycleBarrier` (streaming_server.py lines 49–99)

The barrier's mutable state is its arrival `counter` and the completed-cycle
count `cycle_number` (the mutex / condition variable serialise `wait` bodies,
so the state machine below steps one `wait`-call arrival at a time).

`barrierArrive` is the part of `CycleBarrier.wait` executed on arrival while
holding the lock: increment the counter; the thread that brings it to
`num_threads` increments the cycle number, resets the counter, broadcasts and
returns `True` (leader); every other thread proceeds to the condition wait and
will return `False` (follower).

`followerResume` is the code a follower runs after its condition wait returns
(either notified or timed out): `if self.counter > 0: self.counter = 0`.
-/

structure BarrierState where
  counter : Nat
  cycle_number : Nat
deriving DecidableEq, Repr

/-- One `wait`-call arrival of `CycleBarrier.wait` for a cohort of
`N = num_threads`; returns the new state and the call's return value. -/
def barrierArrive (N : Nat) (s : BarrierState) : BarrierState × Bool :=
  if s.counter + 1 = N then
    (⟨0, s.cycle_number + 1⟩, true)
  else
    (⟨s.counter + 1, s.cycle_number⟩, false)

/-- A follower's post-wait check in `CycleBarrier.wait`:
`if self.counter > 0: self.counter = 0` (then return `False`). -/
def followerResume (s : BarrierState) : BarrierState :=
  if s.counter > 0 then ⟨0, s.cycle_number⟩ else s

/-- `k` successive `wait` arrivals starting from state `s`: final state and
the number of arrivals that returned leader (`True`). -/
def runArrivals (N : Nat) : Nat → BarrierState → BarrierState × Nat
  | 0, s => (s, 0)
  | k + 1, s =>
    ((runArrivals N k (barrierArrive N s).1).1,
     (if (barrierArrive N s).2 then 1 else 0) +
       (runArrivals N k (barrierArrive N s).1).2)

theorem runArrivals_add (N a b : Nat) (s : BarrierState) :
    runArrivals N (a + b) s =
      ((runArrivals N b (runArrivals N a s).1).1,
       (runArrivals N a s).2 + (runArrivals N b (runArrivals N a s).1).2) := by
  induction a generalizing s with
  | zero => simp [runArrivals]
  | succ a ih =>
    have h : a + 1 + b = (a + b) + 1 := by omega
    rw [h]
    simp only [runArrivals, ih]
    rw [← Nat.add_assoc]

theorem runArrivals_no_leader (N : Nat) :
    ∀ (m c cy : Nat), c + m < N →
      runArrivals N m ⟨c, cy⟩ = (⟨c + m, cy⟩, 0) := by
  intro m
  induction m with
  | zero => intro c cy _; simp [runArrivals]
  | succ m ih =>
    intro c cy h
    have h1 : ¬ (c + 1 = N) := by omega
    simp only [runArrivals, barrierArrive, h1, if_false]
    have h2 : c + 1 + m < N := by omega
    rw [ih (c + 1) cy h2]
    have hc : c + 1 + m = c + (m + 1) := by omega
    rw [hc]
    simp

theorem runArrivals_cycle (N cy : Nat) (hN : 1 ≤ N) :
    runArrivals N N ⟨0, cy⟩ = (⟨0, cy + 1⟩, 1) := by
  obtain ⟨m, rfl⟩ : ∃ m, N = m + 1 := ⟨N - 1, by omega⟩
  rw [runArrivals_add (m + 1) m 1]
  rw [runArrivals_no_leader (m + 1) m 0 cy (by omega)]
  simp only [runArrivals, barrierArrive, Nat.zero_add]
  simp

theorem runArrivals_cycles (N : Nat) (hN : 1 ≤ N) :
    ∀ (K cy : Nat), runArrivals N (N * K) ⟨0, cy⟩ = (⟨0, cy + K⟩, K) := by
  intro K
  induction K with
  | zero => intro cy; simp [runArrivals]
  | succ K ih =>
    intro cy
    have h : N * (K + 1) = N + N * K := by ring
    rw [h, runArrivals_add N N (N * K)]
    rw [runArrivals_cycle N cy hN]
    rw [ih (cy + 1)]
    simp [BarrierState.mk.injEq]
    omega

/-- C1. Barrier election: for every cohort size `N ≥ 1`, over any sequence of
`K` completed cycles (i.e. `N * K` successive `wait`-call arrivals starting
from the initial state), exactly `K` of the `N * K` calls return leader
(`true`) — all others return follower — and the cycle number afterwards
equals `K` with the counter back at `0`. -/
theorem barrier_election (N K : Nat) (hN : 1 ≤ N) :
    runArrivals N (N * K) ⟨0, 0⟩ = (⟨0, K⟩, K) := by
  have h := runArrivals_cycles N hN K 0
  simpa using h

theorem barrier_election_witness :
    1 ≤ 3 ∧ runArrivals 3 (3 * 4) ⟨0, 0⟩ = (⟨0, 4⟩, 4) :=
  ⟨by decide, barrier_election 3 4 (by decide)⟩

/-- C2. Barrier follower behaviour: a `wait` call that finds the incremented
counter still below `num_threads` returns follower and leaves the state with
only the incremented counter; after its condition wait it resets the counter
to `0` only when it observes a still-positive counter (the stuck/timed-out
case), and a follower released normally by the leader's broadcast — the leader
has just reset the counter to `0` — leaves the barrier state unchanged. -/
theorem barrier_follower_behaviour (N : Nat) (s : BarrierState) :
    (s.counter + 1 < N →
      (barrierArrive N s).2 = false ∧
      (barrierArrive N s).1 = ⟨s.counter + 1, s.cycle_number⟩) ∧
    (s.counter = 0 → followerResume s = s) ∧
    (0 < s.counter → followerResume s = ⟨0, s.cycle_number⟩) ∧
    ((barrierArrive N s).2 = true →
      followerResume (barrierArrive N s).1 = (barrierArrive N s).1) := by
  refine ⟨?_, ?_, ?_, ?_⟩
  · intro h
    have h1 : ¬ (s.counter + 1 = N) := by omega
    simp [barrierArrive, h1]
  · intro h; simp [followerResume, h]
  · intro h; simp [followerResume, h]
  · intro h
    by_cases h1 : s.counter + 1 = N
    · simp [barrierArrive, h1, followerResume]
    · simp [barrierArrive, h1] at h

theorem barrier_follower_behaviour_witness :
    ((⟨1, 0⟩ : BarrierState).counter + 1 < 5 →
      (barrierArrive 5 ⟨1, 0⟩).2 = false ∧
      (barrierArrive 5 ⟨1, 0⟩).1 = ⟨2, 0⟩) ∧
    ((⟨1, 0⟩ : BarrierState).counter = 0 → followerResume ⟨1, 0⟩ = ⟨1, 0⟩) ∧
    (0 < (⟨1, 0⟩ : BarrierState).counter → followerResume ⟨1, 0⟩ = ⟨0, 0⟩) ∧
    ((barrierArrive 5 ⟨1, 0⟩).2 = true →
      followerResume (barrierArrive 5 ⟨1, 0⟩).1 = (barrierArrive 5 ⟨1, 0⟩).1) :=
  barrier_follower_behaviour 5 ⟨1, 0⟩

/-! ## Table configuration (YAML `tables` entries)

A `TableConfig` models one entry of the YAML `tables` list as consumed by
`StreamingTableGenerator.__init__` / `StreamingServer`.  Optional keys are
`Option` fields (`none` = key absent).  A `row_count` is either an integer or
a string expression; the engine evaluates string expressions with Python
`eval` in `execute_postprocess_tables`, which is external dynamic code — its
outcome is modelled as the `evalResult` baked into `RowCountCfg.strexpr`
(`none` = the evaluation raised). -/

structure ColumnSpec where
  column_name : String
  data : String := ""
  is_primary_key : Bool := false
deriving DecidableEq, Repr

structure CadenceCfg where
  rows_per_minute : Option Int := none
  enabled : Option Bool := none
deriving DecidableEq, Repr

inductive RowCountCfg where
  | intval (n : Int)
  | strexpr (evalResult : Option Int)
deriving DecidableEq, Repr

structure TableConfig where
  table_name : String
  columns : List ColumnSpec := []
  row_count : Option RowCountCfg := none
  start_row_id : Option Int := none
  update_policy : Option String := none
  postprocess_mode : Option String := none
  cadence : Option CadenceCfg := none
deriving DecidableEq, Repr

/-! ## Worker construction (`StreamingTableGenerator.__init__`, lines 105–136)

`rows_per_tick = max(1, int(self.rows_per_minute * self.tick_interval / 60))`:
Python's `/` is exact on these operands up to float rounding and `int(...)`
truncates toward zero, which on integer operands is `Int.tdiv`; the embedding
uses exact integer arithmetic. -/

def rpmOf (t : TableConfig) : Int :=
  ((t.cadence.getD {}).rows_per_minute).getD 60

def enabledOf (t : TableConfig) : Bool :=
  ((t.cadence.getD {}).enabled).getD true

def updatePolicyOf (t : TableConfig) : String :=
  t.update_policy.getD "append"

def postprocessModeOf (t : TableConfig) : String :=
  t.postprocess_mode.getD "replace"

def tickIntervalOf (_ : TableConfig) : Int := 10

def rowsPerTickOf (t : TableConfig) : Int :=
  max 1 ((rpmOf t * 10).tdiv 60)

def initRowId (t : TableConfig) : Int :=
  t.start_row_id.getD 1

theorem max_one_tdiv_eq_fdiv (a : Int) : max 1 (a.tdiv 60) = max 1 (a.fdiv 60) := by
  rcases le_or_lt 0 a with h | h
  · rw [Int.fdiv_eq_tdiv h (by norm_num)]
  · have h2 : (0 : Int) ≤ -a := by omega
    have h3 : (0 : Int) ≤ (-a).tdiv 60 := Int.tdiv_nonneg h2 (by norm_num)
    have h4 : (-a).tdiv 60 = -(a.tdiv 60) := Int.neg_tdiv a 60
    have h5 : a.fdiv 60 ≤ 0 := by
      rw [Int.fdiv_eq_ediv _ (by norm_num)]
      have := Int.ediv_neg' h (show (0 : Int) < 60 by norm_num)
      omega
    omega

theorem fdiv_ten_sixty (rpm : Int) : (rpm * 10).fdiv 60 = rpm.fdiv 6 := by
  rw [Int.fdiv_eq_ediv _ (by norm_num), Int.fdiv_eq_ediv _ (by norm_num)]
  have h : rpm * 10 = 10 * rpm := by ring
  have h2 : (60 : Int) = 10 * 6 := by norm_num
  rw [h, h2, Int.mul_ediv_mul_of_pos _ _ (by norm_num)]

/-- C8. Cadence derivation: for every table config the tick interval is the
fixed constant `10` seconds, and `rows_per_tick` equals
`max(1, ⌊rows_per_minute * 10 / 60⌋) = max(1, ⌊rpm / 6⌋)`, with
`rows_per_minute` defaulting to `60`, so the default configuration yields
`10` rows per tick. -/
theorem cadence_derivation (t : TableConfig) :
    tickIntervalOf t = 10 ∧
    rowsPerTickOf t = max 1 ((rpmOf t * 10).fdiv 60) ∧
    rowsPerTickOf t = max 1 ((rpmOf t).fdiv 6) ∧
    ((t.cadence.getD {}).rows_per_minute = none → rpmOf t = 60) ∧
    (rpmOf t = 60 → rowsPerTickOf t = 10) := by
  refine ⟨rfl, ?_, ?_, ?_, ?_⟩
  · exact max_one_tdiv_eq_fdiv (rpmOf t * 10)
  · unfold rowsPerTickOf
    rw [max_one_tdiv_eq_fdiv (rpmOf t * 10), fdiv_ten_sixty]
  · intro h; simp [rpmOf, h]
  · intro h; simp [rowsPerTickOf, h]; rfl

/-- A minimal table config: every optional key absent. -/
def defaultCfg : TableConfig := { table_name := "t" }

theorem cadence_derivation_witness :
    tickIntervalOf defaultCfg = 10 ∧
    rowsPerTickOf defaultCfg = max 1 ((rpmOf defaultCfg * 10).fdiv 60) ∧
    rowsPerTickOf defaultCfg = max 1 ((rpmOf defaultCfg).fdiv 6) ∧
    ((defaultCfg.cadence.getD {}).rows_per_minute = none → rpmOf defaultCfg = 60) ∧
    (rpmOf defaultCfg = 60 → rowsPerTickOf defaultCfg = 10) :=
  cadence_derivation defaultCfg

/-! ## Cache warm-up (`StreamingTableGenerator.load_existing_data`, lines 138–193)

The Delta table read back by `DeltaTable(...).to_pandas()` is a `DataFrame`:
a column schema plus rows (each row is `row.to_dict()`, an association list;
cell values are modelled as `Int`, the type relevant to the PK arithmetic).
`StoreRead` is the outcome of the read: `missing` = the output path does not
exist (early return), `failure` = `DeltaTable`/`to_pandas` raised (caught by
the `except`), `ok df` = the read succeeded.

Faithfulness notes:
* `df[pk_col].tolist()` is `colVals`; pandas frames are rectangular, so the
  `getD 0` default inside `colVals` is never exercised on well-formed frames.
* The row loop `parent_rows[name][row_dict[pk_col]] = row_dict` raises
  `KeyError` when a declared PK column is absent from the data; the `except`
  then keeps every mutation already made.  `insertAllRows` returns the
  partial map together with a success flag.
* `df[pk_cols[0]].max()` raises `KeyError` if the first PK column is not in
  the schema: the final `else` branch leaves `current_row_id` untouched. -/

abbrev Row := List (String × Int)

structure DataFrame where
  cols : List String
  rows : List Row
deriving DecidableEq, Repr

inductive StoreRead where
  | missing
  | failure
  | ok (df : DataFrame)
deriving DecidableEq, Repr

/-- The shared `TableFaker` caches (`primary_key_cache`, `parent_rows`)
together with the worker's `current_row_id` cursor. -/
structure WorkerCaches where
  primary_key_cache : List (String × List (String × List Int))
  parent_rows : List (String × List (Int × Row))
  current_row_id : Int
deriving DecidableEq, Repr

/-- PK columns found from the spec:
`[c['column_name'] for c in columns if c.get('is_primary_key')]`. -/
def pkColsOf (t : TableConfig) : List String :=
  (t.columns.filter (·.is_primary_key)).map (·.column_name)

/-- `df[c].tolist()`. -/
def colVals (df : DataFrame) (c : String) : List Int :=
  df.rows.map (fun r => (dget r c).getD 0)

/-- The PK values of one row, in PK-column order (only the present ones). -/
def pkValsOf (pks : List String) (r : Row) : List Int :=
  pks.filterMap (fun c => dget r c)

/-- Inner loop of the parent-rows population for one row:
`for pk_col in pk_cols: parent_rows[name][row_dict[pk_col]] = row_dict`;
returns the (possibly partial) map and `false` on `KeyError`. -/
def insertRowPks : List String → Row → List (Int × Row) → List (Int × Row) × Bool
  | [], _, m => (m, true)
  | c :: cs, r, m =>
    match dget r c with
    | none => (m, false)
    | some v => insertRowPks cs r (dset m v r)

/-- Outer loop over `df.iterrows()`. -/
def insertAllRows : List Row → List String → List (Int × Row) → List (Int × Row) × Bool
  | [], _, m => (m, true)
  | r :: rs, pks, m =>
    match insertRowPks pks r m with
    | (m', true) => insertAllRows rs pks m'
    | (m', false) => (m', false)

/-- pandas `.max()` over a column's values. -/
def listMax : List Int → Option Int
  | [] => none
  | x :: xs => some (xs.foldl max x)

/-- `StreamingTableGenerator.load_existing_data` (lines 138–193). -/
def load_existing_data (t : TableConfig) (store : StoreRead) (s : WorkerCaches) :
    WorkerCaches :=
  match store with
  | .missing => s
  | .failure => s
  | .ok df =>
    if df.rows.isEmpty then s
    else
      match pkColsOf t with
      | [] => s
      | pk0 :: pkRest =>
        let name := t.table_name
        let pkc0 :=
          if dget s.primary_key_cache name = none
          then dset s.primary_key_cache name []
          else s.primary_key_cache
        let entry1 := (pk0 :: pkRest).foldl
          (fun e c => if c ∈ df.cols then dset e c (colVals df c) else e)
          ((dget pkc0 name).getD [])
        let pkc1 := dset pkc0 name entry1
        let pr1 := insertAllRows df.rows (pk0 :: pkRest) ((dget s.parent_rows name).getD [])
        let prs1 := dset s.parent_rows name pr1.1
        if pr1.2 = false then
          { primary_key_cache := pkc1, parent_rows := prs1,
            current_row_id := s.current_row_id }
        else if pk0 ∈ df.cols then
          match listMax (colVals df pk0) with
          | some m =>
            { primary_key_cache := pkc1, parent_rows := prs1, current_row_id := m + 1 }
          | none =>
            { primary_key_cache := pkc1, parent_rows := prs1,
              current_row_id := s.current_row_id }
        else
          { primary_key_cache := pkc1, parent_rows := prs1,
            current_row_id := s.current_row_id }

/-- The caches and cursor of a freshly constructed worker in a fresh process:
empty shared caches and `current_row_id = table_config.get('start_row_id', 1)`. -/
def freshWorker (t : TableConfig) : WorkerCaches :=
  { primary_key_cache := [], parent_rows := [], current_row_id := initRowId t }

/-- C4 counterexample: a table whose spec sets `start_row_id = 7`.  When the
table-store read raises, `load_existing_data` swallows the error and leaves
the worker exactly as constructed — with `current_row_id = 7`, not `1` as the
claim states. -/
def c4cfg : TableConfig := { table_name := "t", start_row_id := some 7 }

theorem warmup_failure_rowid_counterexample :
    (load_existing_data c4cfg .failure (freshWorker c4cfg)).primary_key_cache = [] ∧
    (load_existing_data c4cfg .failure (freshWorker c4cfg)).parent_rows = [] ∧
    (load_existing_data c4cfg .failure (freshWorker c4cfg)).current_row_id = 7 ∧
    ¬ (load_existing_data c4cfg .failure (freshWorker c4cfg)).current_row_id = 1 := by
  decide

/-- C4 (amended). Warm-up error semantics: when the table-store read during
`load_existing_data` raises, the error is swallowed and the worker state is
completely unchanged; a freshly constructed worker therefore starts with no
entry for its table in either `ParentCache` map and with `current_row_id`
equal to its construction value `spec.start_row_id` (or `1` when absent) —
not unconditionally `1`. -/
theorem warmup_failure_fresh (t : TableConfig) (s : WorkerCaches) :
    load_existing_data t .failure s = s ∧
    load_existing_data t .missing s = s ∧
    (load_existing_data t .failure (freshWorker t)).current_row_id = initRowId t ∧
    dget (load_existing_data t .failure (freshWorker t)).primary_key_cache
      t.table_name = none ∧
    dget (load_existing_data t .failure (freshWorker t)).parent_rows
      t.table_name = none :=
  ⟨rfl, rfl, rfl, rfl, rfl⟩

/-! ### Supporting lemmas for the warm-up postcondition -/

theorem dset_of_fresh {K V : Type} [DecidableEq K]
    (l : List (K × V)) (k : K) (v : V) (h : dget l k = none) :
    dset l k v = l ++ [(k, v)] := by
  induction l with
  | nil => simp [dset]
  | cons kv rest ih =>
    obtain ⟨k', v'⟩ := kv
    simp only [dget] at h
    by_cases hk : k' = k
    · simp [hk] at h
    · simp only [dget, if_neg hk] at h
      simp [dset, hk, ih h]

theorem dget_append_of_none {K V : Type} [DecidableEq K]
    (l₁ l₂ : List (K × V)) (k : K) (h : dget l₁ k = none) :
    dget (l₁ ++ l₂) k = dget l₂ k := by
  induction l₁ with
  | nil => simp
  | cons kv rest ih =>
    obtain ⟨k', v'⟩ := kv
    simp only [dget] at h
    by_cases hk : k' = k
    · simp [hk] at h
    · simp only [dget, if_neg hk] at h
      simp [dget, hk, ih h]

theorem foldl_pk_entry (df : DataFrame) :
    ∀ (cols : List String) (e : List (String × List Int)),
      cols.Nodup → (∀ c ∈ cols, dget e c = none) → (∀ c ∈ cols, c ∈ df.cols) →
      cols.foldl (fun e c => if c ∈ df.cols then dset e c (colVals df c) else e) e
        = e ++ cols.map (fun c => (c, colVals df c)) := by
  intro cols
  induction cols with
  | nil => intro e _ _ _; simp
  | cons c cs ih =>
    intro e hnd hfresh hin
    have hc : c ∈ df.cols := hin c (by simp)
    simp only [List.foldl_cons, if_pos hc]
    rw [dset_of_fresh e c (colVals df c) (hfresh c (by simp))]
    rw [ih (e ++ [(c, colVals df c)]) (List.nodup_cons.mp hnd).2 ?_ ?_]
    · simp
    · intro c' hc'
      have hne : c ≠ c' := fun h => (List.nodup_cons.mp hnd).1 (h ▸ hc')
      rw [dget_append_of_none _ _ _ (hfresh c' (by simp [hc']))]
      simp [dget, hne]
    · intro c' hc'; exact hin c' (by simp [hc'])

theorem insertRowPks_success (r : Row) :
    ∀ (pks : List String) (m : List (Int × Row)),
      (∀ c ∈ pks, (dget r c).isSome) →
      (insertRowPks pks r m).2 = true ∧
      (∀ v : Int, dget (insertRowPks pks r m).1 v =
        if v ∈ pkValsOf pks r then some r else dget m v) := by
  intro pks
  induction pks with
  | nil => intro m _; simp [insertRowPks, pkValsOf]
  | cons c cs ih =>
    intro m h
    obtain ⟨v0, hv0⟩ := Option.isSome_iff_exists.mp (h c (by simp))
    have hrest : ∀ c' ∈ cs, (dget r c').isSome := fun c' hc' => h c' (by simp [hc'])
    have hpkv : pkValsOf (c :: cs) r = v0 :: pkValsOf cs r := by
      simp [pkValsOf, List.filterMap_cons, hv0]
    simp only [insertRowPks, hv0]
    refine ⟨(ih (dset m v0 r) hrest).1, ?_⟩
    intro v
    rw [(ih (dset m v0 r) hrest).2 v, hpkv]
    by_cases hv : v ∈ pkValsOf cs r
    · simp [hv]
    · by_cases hvv : v = v0
      · subst hvv; simp [hv, dget_dset_self]
      · have : ¬ (v0 = v) := fun h => hvv h.symm
        simp [hv, hvv, dget_dset_ne m v0 v r this]

theorem insertAllRows_success (pks : List String) :
    ∀ (rows : List Row) (m : List (Int × Row)),
      (∀ r ∈ rows, ∀ c ∈ pks, (dget r c).isSome) →
      (insertAllRows rows pks m).2 = true := by
  intro rows
  induction rows with
  | nil => intro m _; simp [insertAllRows]
  | cons r rs ih =>
    intro m h
    have hr := (insertRowPks_success r pks m (h r (by simp))).1
    rcases h' : insertRowPks pks r m with ⟨m', b⟩
    rw [h'] at hr
    simp only at hr
    subst hr
    simp only [insertAllRows, h']
    exact ih m' (fun r' hr' c hc => h r' (by simp [hr']) c hc)

theorem insertAllRows_preserve (pks : List String) :
    ∀ (rows : List Row) (m : List (Int × Row)) (v : Int) (r₀ : Row),
      (∀ r ∈ rows, ∀ c ∈ pks, (dget r c).isSome) →
      dget m v = some r₀ →
      (∀ r' ∈ rows, v ∈ pkValsOf pks r' → r' = r₀) →
      dget (insertAllRows rows pks m).1 v = some r₀ := by
  intro rows
  induction rows with
  | nil => intro m v r₀ _ hm _; simpa [insertAllRows] using hm
  | cons r rs ih =>
    intro m v r₀ h hm hcomp
    have hr := insertRowPks_success r pks m (h r (by simp))
    rcases h' : insertRowPks pks r m with ⟨m', b⟩
    rw [h'] at hr
    simp only at hr
    obtain ⟨hb, hchar⟩ := hr
    subst hb
    simp only [insertAllRows, h']
    refine ih m' v r₀ (fun r' hr' c hc => h r' (by simp [hr']) c hc) ?_
      (fun r' hr' hv => hcomp r' (by simp [hr']) hv)
    rw [hchar v]
    by_cases hv : v ∈ pkValsOf pks r
    · rw [if_pos hv]
      rw [hcomp r (by simp) hv]
    · rw [if_neg hv]; exact hm

theorem insertAllRows_mem (pks : List String) :
    ∀ (rows : List Row) (m : List (Int × Row)),
      (∀ r ∈ rows, ∀ c ∈ pks, (dget r c).isSome) →
      (∀ r1 ∈ rows, ∀ r2 ∈ rows, r1 ≠ r2 →
        ∀ v ∈ pkValsOf pks r1, v ∉ pkValsOf pks r2) →
      ∀ r ∈ rows, ∀ v ∈ pkValsOf pks r,
        dget (insertAllRows rows pks m).1 v = some r := by
  intro rows
  induction rows with
  | nil => intro m _ _ r hr; simp at hr
  | cons r0 rs ih =>
    intro m h hdisj r hr v hv
    have hr0 := insertRowPks_success r0 pks m (h r0 (by simp))
    rcases h' : insertRowPks pks r0 m with ⟨m', b⟩
    rw [h'] at hr0
    simp only at hr0
    obtain ⟨hb, hchar⟩ := hr0
    subst hb
    simp only [insertAllRows, h']
    rcases List.mem_cons.mp hr with hreq | hrtail
    · subst hreq
      refine insertAllRows_preserve pks rs m' v r
        (fun r' hr' c hc => h r' (by simp [hr']) c hc) ?_ ?_
      · rw [hchar v, if_pos hv]
      · intro r' hr' hv'
        by_cases hrr : r' = r
        · exact hrr
        · exact absurd hv' (hdisj r (by simp) r' (by simp [hr'])
            (fun h => hrr h.symm) v hv)
    · exact ih m' (fun r' hr' c hc => h r' (by simp [hr']) c hc)
        (fun r1 h1 r2 h2 hne => hdisj r1 (by simp [h1]) r2 (by simp [h2]) hne)
        r hrtail v hv

theorem foldl_max_spec :
    ∀ (xs : List Int) (x : Int),
      x ≤ xs.foldl max x ∧ (∀ y ∈ xs, y ≤ xs.foldl max x) ∧
      (xs.foldl max x = x ∨ xs.foldl max x ∈ xs) := by
  intro xs
  induction xs with
  | nil => intro x; simp
  | cons y ys ih =>
    intro x
    obtain ⟨h1, h2, h3⟩ := ih (max x y)
    refine ⟨le_trans (le_max_left x y) h1, ?_, ?_⟩
    · intro z hz
      rcases List.mem_cons.mp hz with hzy | hzys
      · exact le_trans (le_trans hzy.le (le_max_right x y)) h1
      · exact h2 z hzys
    · rcases h3 with h3 | h3
      · rcases max_choice x y with hc | hc
        · left; rw [List.foldl_cons, h3, hc]
        · right; rw [List.foldl_cons, h3, hc]; simp
      · right; simp [h3]

theorem listMax_spec (l : List Int) (M : Int) (h : listMax l = some M) :
    M ∈ l ∧ ∀ x ∈ l, x ≤ M := by
  match l with
  | [] => simp [listMax] at h
  | x :: xs =>
    simp only [listMax, Option.some.injEq] at h
    obtain ⟨h1, h2, h3⟩ := foldl_max_spec xs x
    subst h
    refine ⟨?_, ?_⟩
    · rcases h3 with h3 | h3
      · rw [h3]; simp
      · simp [h3]
    · intro z hz
      rcases List.mem_cons.mp hz with hzx | hzxs
      · subst hzx; exact h1
      · exact h2 z hzxs

/-- C3 counterexample: a spec declaring two PK columns `a`, `b` of which only
`a` is present in the stored data.  The claim's hypothesis ("at least one
primary-key column present in the data") holds, but the parent-rows loop
raises `KeyError` on `b`, the exception aborts the `try` body, and
`current_row_id` is never advanced to `max + 1 = 6`: it stays `1`. -/
def c3cfg : TableConfig :=
  { table_name := "t",
    columns := [{ column_name := "a", is_primary_key := true },
                { column_name := "b", is_primary_key := true }] }

def c3df : DataFrame := { cols := ["a"], rows := [[("a", 5)]] }

theorem warmup_missing_pk_counterexample :
    pkColsOf c3cfg = ["a", "b"] ∧
    "a" ∈ c3df.cols ∧
    c3df.rows ≠ [] ∧
    listMax (colVals c3df "a") = some 5 ∧
    (load_existing_data c3cfg (.ok c3df) (freshWorker c3cfg)).current_row_id = 1 ∧
    ¬ (load_existing_data c3cfg (.ok c3df) (freshWorker c3cfg)).current_row_id
        = 5 + 1 := by
  decide

/-- C3 (amended). Warm-up postcondition: for every worker whose store read
succeeds with at least one row and whose spec declares at least one
primary-key column, **all of which are present in the data** (the amendment —
with a declared PK column absent from the data the row loop raises `KeyError`
and the cursor is not advanced), with pairwise-disjoint PK values across
distinct rows and a cache holding no entry for the table yet: after
`load_existing_data` returns, the PK index for the table equals the list of
PK values read from the store (one entry per PK column, in spec order), the
parent-rows map holds each stored row keyed by its first PK value, and
`current_row_id` equals the maximum value of the first PK column plus 1. -/
theorem warmup_postcondition (t : TableConfig) (df : DataFrame) (s : WorkerCaches)
    (pk0 : String) (pkRest : List String)
    (hpk : pkColsOf t = pk0 :: pkRest)
    (hnd : (pkColsOf t).Nodup)
    (hrows : df.rows ≠ [])
    (hcols : ∀ c ∈ pkColsOf t, c ∈ df.cols)
    (hvals : ∀ r ∈ df.rows, ∀ c ∈ pkColsOf t, (dget r c).isSome)
    (hdisj : ∀ r1 ∈ df.rows, ∀ r2 ∈ df.rows, r1 ≠ r2 →
      ∀ v ∈ pkValsOf (pkColsOf t) r1, v ∉ pkValsOf (pkColsOf t) r2)
    (hfresh1 : dget s.primary_key_cache t.table_name = none)
    (hfresh2 : dget s.parent_rows t.table_name = none) :
    dget (load_existing_data t (.ok df) s).primary_key_cache t.table_name =
      some ((pkColsOf t).map (fun c => (c, colVals df c))) ∧
    (∀ r ∈ df.rows, ∀ v : Int, dget r pk0 = some v →
      dget ((dget (load_existing_data t (.ok df) s).parent_rows
        t.table_name).getD []) v = some r) ∧
    (∃ M, listMax (colVals df pk0) = some M ∧
      (load_existing_data t (.ok df) s).current_row_id = M + 1 ∧
      M ∈ colVals df pk0 ∧ ∀ x ∈ colVals df pk0, x ≤ M) := by
  have hempty : df.rows.isEmpty = false := by
    cases hr : df.rows with
    | nil => exact absurd hr hrows
    | cons a as => rfl
  have hpk0 : pk0 ∈ df.cols := hcols pk0 (by rw [hpk]; simp)
  obtain ⟨M, hMeq⟩ : ∃ M, listMax (colVals df pk0) = some M := by
    cases hcv : colVals df pk0 with
    | nil =>
      simp only [colVals] at hcv
      exact absurd (List.map_eq_nil_iff.mp hcv) hrows
    | cons x xs => exact ⟨xs.foldl max x, rfl⟩
  have hvals' : ∀ r ∈ df.rows, ∀ c ∈ pk0 :: pkRest, (dget r c).isSome := by
    intro r hr c hc
    exact hvals r hr c (by rw [hpk]; exact hc)
  have hdisj' : ∀ r1 ∈ df.rows, ∀ r2 ∈ df.rows, r1 ≠ r2 →
      ∀ v ∈ pkValsOf (pk0 :: pkRest) r1, v ∉ pkValsOf (pk0 :: pkRest) r2 := by
    rw [← hpk]; exact hdisj
  have hsucc := insertAllRows_success (pk0 :: pkRest) df.rows [] hvals'
  have hnd' : (pk0 :: pkRest).Nodup := hpk ▸ hnd
  have hcols' : ∀ c ∈ pk0 :: pkRest, c ∈ df.cols := by
    intro c hc; exact hcols c (by rw [hpk]; exact hc)
  have hload : load_existing_data t (.ok df) s =
      { primary_key_cache :=
          dset (dset s.primary_key_cache t.table_name [])
            t.table_name ((pk0 :: pkRest).map (fun c => (c, colVals df c))),
        parent_rows :=
          dset s.parent_rows t.table_name
            (insertAllRows df.rows (pk0 :: pkRest) []).1,
        current_row_id := M + 1 } := by
    simp only [load_existing_data, hempty, Bool.false_eq_true, if_false, hpk,
      hfresh1, eq_self_iff_true, if_true, dget_dset_self, Option.getD_some,
      hfresh2, Option.getD_none]
    rw [foldl_pk_entry df (pk0 :: pkRest) [] hnd' (by intro c _; rfl) hcols']
    simp only [List.nil_append, hsucc, Bool.true_eq_false, if_false, hpk0,
      eq_self_iff_true, if_true, hMeq]
  refine ⟨?_, ?_, ?_⟩
  · rw [hload]
    simp only [dget_dset_self, hpk]
  · intro r hr v hv
    rw [hload]
    simp only [dget_dset_self, Option.getD_some]
    refine insertAllRows_mem (pk0 :: pkRest) df.rows [] hvals' hdisj' r hr v ?_
    simp [pkValsOf, List.filterMap_cons, hv]
  · exact ⟨M, hMeq, by rw [hload], (listMax_spec _ M hMeq).1,
      (listMax_spec _ M hMeq).2⟩

/-- A concrete warm-up scenario: one PK column `a`, two stored rows. -/
def w3cfg : TableConfig :=
  { table_name := "t",
    columns := [{ column_name := "a", is_primary_key := true }] }

def w3df : DataFrame := { cols := ["a"], rows := [[("a", 1)], [("a", 2)]] }

theorem warmup_postcondition_witness :
    dget (load_existing_data w3cfg (.ok w3df) (freshWorker w3cfg)).primary_key_cache
        w3cfg.table_name =
      some ((pkColsOf w3cfg).map (fun c => (c, colVals w3df c))) ∧
    (∀ r ∈ w3df.rows, ∀ v : Int, dget r "a" = some v →
      dget ((dget (load_existing_data w3cfg (.ok w3df) (freshWorker w3cfg)).parent_rows
        w3cfg.table_name).getD []) v = some r) ∧
    (∃ M, listMax (colVals w3df "a") = some M ∧
      (load_existing_data w3cfg (.ok w3df) (freshWorker w3cfg)).current_row_id = M + 1 ∧
      M ∈ colVals w3df "a" ∧ ∀ x ∈ colVals w3df "a", x ≤ M) :=
  warmup_postcondition w3cfg w3df (freshWorker w3cfg) "a" []
    (by decide) (by decide) (by decide) (by decide) (by decide) (by decide)
    rfl rfl

/-! ## Tick (`generate_and_append_batch`, lines 195–234)

One tick synthesizes a batch (`generate_table`, an external collaborator that
can raise) and appends it to the table store (`write_deltalake`, mode
`overwrite` when the directory does not yet exist, `append` otherwise; also
can raise).  The whole body is wrapped in `try/except Exception`, so the
caller never sees an exception; `current_row_id += rows_per_tick` is the last
statement of the `try` block and runs only when both steps succeeded.

`TickOutcome` is the oracle for the two external calls; `WState.dir` models
the table directory: `none` = absent, `some bs` = present holding the batch
records `(start_row_id, row_count)` appended so far.  Store writes are atomic
at batch level (the store client's contract), so a failed write leaves the
directory as it was. -/

inductive TickOutcome where
  | synthFail
  | appendFail
  | ok
deriving DecidableEq, Repr

structure WState where
  current_row_id : Int
  rows_per_tick : Int
  dir : Option (List (Int × Int))
deriving DecidableEq, Repr

def generate_and_append_batch (o : TickOutcome) (s : WState) : WState :=
  match o with
  | .synthFail => s
  | .appendFail => s
  | .ok =>
    match s.dir with
    | none =>
      { s with dir := some [(s.current_row_id, s.rows_per_tick)],
               current_row_id := s.current_row_id + s.rows_per_tick }
    | some bs =>
      { s with dir := some (bs ++ [(s.current_row_id, s.rows_per_tick)]),
               current_row_id := s.current_row_id + s.rows_per_tick }

theorem gen_batch_rpt (o : TickOutcome) (s : WState) :
    (generate_and_append_batch o s).rows_per_tick = s.rows_per_tick := by
  cases o <;> cases hd : s.dir <;> simp [generate_and_append_batch, hd]

theorem gen_batch_cur (o : TickOutcome) (s : WState) :
    (generate_and_append_batch o s).current_row_id =
      if o = .ok then s.current_row_id + s.rows_per_tick
      else s.current_row_id := by
  cases o <;> cases hd : s.dir <;> simp [generate_and_append_batch, hd]

theorem gen_batch_fail (o : TickOutcome) (s : WState) (h : ¬ o = .ok) :
    generate_and_append_batch o s = s := by
  cases o <;> simp_all [generate_and_append_batch]

/-- C9. Batch atomicity on failure: `generate_and_append_batch` catches every
exception (`except Exception`, modelled by totality over the outcome oracle),
and whenever the synthesize step or the store append step raises, the state —
in particular `current_row_id` — is left exactly as it was before the call;
the cursor advances by `rows_per_tick` only after a successful append. -/
theorem batch_failure_atomic (o : TickOutcome) (s : WState) :
    (¬ o = .ok → generate_and_append_batch o s = s) ∧
    ((generate_and_append_batch o s).current_row_id =
      if o = .ok then s.current_row_id + s.rows_per_tick
      else s.current_row_id) ∧
    (generate_and_append_batch o s).rows_per_tick = s.rows_per_tick :=
  ⟨gen_batch_fail o s, gen_batch_cur o s, gen_batch_rpt o s⟩

theorem batch_failure_atomic_witness :
    (¬ TickOutcome.synthFail = .ok →
      generate_and_append_batch .synthFail ⟨1, 10, some []⟩ = ⟨1, 10, some []⟩) ∧
    ((generate_and_append_batch .synthFail ⟨1, 10, some []⟩).current_row_id =
      if TickOutcome.synthFail = .ok then
        (⟨1, 10, some []⟩ : WState).current_row_id +
          (⟨1, 10, some []⟩ : WState).rows_per_tick
      else (⟨1, 10, some []⟩ : WState).current_row_id) ∧
    (generate_and_append_batch .synthFail ⟨1, 10, some []⟩).rows_per_tick =
      (⟨1, 10, some []⟩ : WState).rows_per_tick :=
  batch_failure_atomic .synthFail ⟨1, 10, some []⟩

/-! ## Run loop tick boundaries (`run_loop`, lines 236–271)

`boundarySeq s os` is the sequence of `current_row_id` values observed at the
top of each `run_loop` iteration (plus the value after the last tick), for a
given sequence of tick outcomes.  Only the worker's own ticks change its
`current_row_id`: `execute_postprocess_tables` resets `current_row_id` only
on generators with `update_policy == 'postprocess'`, and those never run a
loop (`start` launches a thread only for policy `append`). -/

def boundarySeq (s : WState) : List TickOutcome → List Int
  | [] => [s.current_row_id]
  | o :: os => s.current_row_id :: boundarySeq (generate_and_append_batch o s) os

/-- C7 counterexample: a single tick whose synthesize step raises leaves
`current_row_id` unchanged, so consecutive tick-boundary values are equal —
the sequence is not strictly increasing although no replace-mode post-process
reset occurred (the worker runs no post-process at all here). -/
theorem rowid_strict_counterexample :
    boundarySeq ⟨1, 10, some []⟩ [.synthFail] = [1, 1] ∧
    ¬ List.Chain' (· < ·) (boundarySeq ⟨1, 10, some []⟩ [.synthFail]) := by
  constructor
  · rfl
  · intro h
    rw [show boundarySeq ⟨1, 10, some []⟩ [.synthFail] = [1, 1] from rfl] at h
    exact absurd (List.chain'_cons.mp h).1 (by omega)

theorem boundarySeq_head (s : WState) (os : List TickOutcome) :
    (boundarySeq s os).head? = some s.current_row_id := by
  cases os <;> rfl

/-- C7 (amended). Monotonic row ids: for every worker, the sequence of
`current_row_id` values at tick boundaries is non-decreasing, and it is
strictly increasing across every tick whose synthesize-and-append succeeds
(in particular over any run of successful ticks); a tick whose synthesize or
append step raises leaves the value unchanged, so the sequence is not
strictly increasing in general.  Replace-mode post-process resets never
touch a looping worker's cursor, since post-process generators run no loop. -/
theorem rowid_monotone (s : WState) (os : List TickOutcome)
    (h : 1 ≤ s.rows_per_tick) :
    List.Chain' (· ≤ ·) (boundarySeq s os) ∧
    ((∀ o ∈ os, o = .ok) → List.Chain' (· < ·) (boundarySeq s os)) := by
  induction os generalizing s with
  | nil => simp [boundarySeq]
  | cons o os ih =>
    have hrpt := gen_batch_rpt o s
    have hcur := gen_batch_cur o s
    obtain ⟨ih1, ih2⟩ := ih (generate_and_append_batch o s) (by rw [hrpt]; exact h)
    constructor
    · simp only [boundarySeq]
      rw [List.chain'_cons']
      refine ⟨?_, ih1⟩
      intro b hb
      rw [boundarySeq_head] at hb
      simp only [Option.mem_def, Option.some.injEq] at hb
      subst hb
      rw [hcur]
      by_cases ho : o = TickOutcome.ok
      · rw [if_pos ho]; omega
      · rw [if_neg ho]
    · intro hall
      simp only [boundarySeq]
      rw [List.chain'_cons']
      refine ⟨?_, ih2 (fun o' ho' => hall o' (by simp [ho']))⟩
      intro b hb
      rw [boundarySeq_head] at hb
      simp only [Option.mem_def, Option.some.injEq] at hb
      subst hb
      rw [hcur, if_pos (hall o (by simp))]
      omega

theorem rowid_monotone_witness :
    1 ≤ (⟨1, 10, some []⟩ : WState).rows_per_tick ∧
    (List.Chain' (· ≤ ·) (boundarySeq ⟨1, 10, some []⟩ [.ok, .ok]) ∧
      ((∀ o ∈ [TickOutcome.ok, TickOutcome.ok], o = .ok) →
        List.Chain' (· < ·) (boundarySeq ⟨1, 10, some []⟩ [.ok, .ok]))) :=
  ⟨by decide, rowid_monotone ⟨1, 10, some []⟩ [.ok, .ok] (by decide)⟩

/-! ## Post-process executor (`execute_postprocess_tables`, lines 512–634)

`execute_postprocess_one` is the per-table body of the executor's loop (each
iteration is isolated by its own `try/except`).  `tableDeps` is the table's
entry in the extracted dependency map.  Row-count resolution
(lines 566–615): an integer is used as-is; a string expression is evaluated
by Python `eval` in a context providing `get_table` and best-effort module
imports — external dynamic code whose outcome is the `evalResult` of
`RowCountCfg.strexpr`, falling back to `100` when the evaluation raised;
a missing `row_count` key defaults to `100`. -/

structure PPState where
  gen : WState
  pkc : List (String × List (String × List Int))
  parent_rows : List (String × List (Int × Row))
deriving DecidableEq, Repr

def resolveRowCount (t : TableConfig) : Int :=
  match t.row_count with
  | none => 100
  | some (.intval n) => n
  | some (.strexpr r) => r.getD 100

def execute_postprocess_one (t : TableConfig) (tableDeps : List String)
    (o : TickOutcome) (s : PPState) : PPState :=
  let missing := tableDeps.filter (fun d => dget s.pkc d = none)
  if missing.isEmpty then
    let mode := postprocessModeOf t
    let s1 :=
      if mode = "replace" then
        match s.gen.dir with
        | some _ =>
          { gen := { s.gen with dir := some [], current_row_id := initRowId t },
            pkc := ddel s.pkc t.table_name,
            parent_rows := ddel s.parent_rows t.table_name }
        | none => s
      else s
    let orig := s1.gen.rows_per_tick
    let g2 := generate_and_append_batch o
      { s1.gen with rows_per_tick := resolveRowCount t }
    let g3 := { g2 with rows_per_tick := orig }
    let g4 :=
      if mode = "replace" then { g3 with current_row_id := initRowId t } else g3
    { s1 with gen := g4 }
  else s

/-- C6 counterexample: a replace-mode post-process table whose directory does
not exist (e.g. the first pass after a failed append that had already
populated the caches, or any fresh start with stale cache state).  The whole
replace branch — directory delete/recreate *and* cache removal — sits inside
`if generator.output_path.exists():`, so nothing is deleted, the table's
`ParentCache` entries survive, and the generated batch starts at the old
cursor `3` rather than `start_row_id`. -/
def c6cfg : TableConfig := { table_name := "t", row_count := some (.intval 5) }

def c6state : PPState :=
  { gen := { current_row_id := 3, rows_per_tick := 10, dir := none },
    pkc := [("t", [("a", [1])])],
    parent_rows := [] }

theorem postprocess_replace_counterexample :
    postprocessModeOf c6cfg = "replace" ∧
    dget (execute_postprocess_one c6cfg [] .ok c6state).pkc "t" =
      some [("a", [1])] ∧
    ¬ dget (execute_postprocess_one c6cfg [] .ok c6state).pkc "t" = none ∧
    (execute_postprocess_one c6cfg [] .ok c6state).gen.dir = some [(3, 5)] ∧
    (execute_postprocess_one c6cfg [] .ok c6state).gen.current_row_id = 1 := by
  decide

/-- C6 (amended). Post-process replace semantics: for every post-process
table with `postprocess_mode` replace (the default) whose parents are all
present in the PK cache, **whose table directory exists** and **whose batch
generation succeeds** (the amendments — with the directory absent the whole
replace branch including the cache removal is skipped; with a failing
generation no batch is produced), one executor pass deletes and recreates the
table directory, removes the table's entries from both `ParentCache` maps,
generates exactly one batch of the resolved row count starting at
`start_row_id`, and leaves `current_row_id` equal to `spec.start_row_id`
(or 1 when absent) with `rows_per_tick` restored to its original value. -/
theorem postprocess_replace (t : TableConfig) (tableDeps : List String)
    (s : PPState) (bs : List (Int × Int))
    (hmode : postprocessModeOf t = "replace")
    (hdeps : ∀ d ∈ tableDeps, ¬ dget s.pkc d = none)
    (hdir : s.gen.dir = some bs)
    (hkeys1 : (s.pkc.map Prod.fst).Nodup)
    (hkeys2 : (s.parent_rows.map Prod.fst).Nodup) :
    dget (execute_postprocess_one t tableDeps .ok s).pkc t.table_name = none ∧
    dget (execute_postprocess_one t tableDeps .ok s).parent_rows
      t.table_name = none ∧
    (execute_postprocess_one t tableDeps .ok s).gen.dir =
      some [(initRowId t, resolveRowCount t)] ∧
    (execute_postprocess_one t tableDeps .ok s).gen.current_row_id =
      initRowId t ∧
    (execute_postprocess_one t tableDeps .ok s).gen.rows_per_tick =
      s.gen.rows_per_tick := by
  have hmiss : (tableDeps.filter (fun d => dget s.pkc d = none)).isEmpty = true := by
    rw [List.isEmpty_iff]
    rw [List.filter_eq_nil_iff]
    intro d hd
    simpa using hdeps d hd
  simp only [execute_postprocess_one, hmiss, if_true, hmode, hdir,
    eq_self_iff_true, generate_and_append_batch]
  refine ⟨?_, ?_, ?_, ?_, ?_⟩
  · exact dget_ddel_self s.pkc t.table_name hkeys1
  · exact dget_ddel_self s.parent_rows t.table_name hkeys2
  · simp
  · simp
  · simp

theorem postprocess_replace_witness :
    (postprocessModeOf defaultCfg = "replace" ∧
      (∀ d ∈ ["p"], ¬ dget ([("p", [("k", [1])])] :
        List (String × List (String × List Int))) d = none)) ∧
    (dget (execute_postprocess_one defaultCfg ["p"] .ok
        ⟨⟨4, 9, some [(1, 3)]⟩, [("p", [("k", [1])])], []⟩).pkc
        defaultCfg.table_name = none ∧
      dget (execute_postprocess_one defaultCfg ["p"] .ok
        ⟨⟨4, 9, some [(1, 3)]⟩, [("p", [("k", [1])])], []⟩).parent_rows
        defaultCfg.table_name = none ∧
      (execute_postprocess_one defaultCfg ["p"] .ok
        ⟨⟨4, 9, some [(1, 3)]⟩, [("p", [("k", [1])])], []⟩).gen.dir =
        some [(initRowId defaultCfg, resolveRowCount defaultCfg)] ∧
      (execute_postprocess_one defaultCfg ["p"] .ok
        ⟨⟨4, 9, some [(1, 3)]⟩, [("p", [("k", [1])])], []⟩).gen.current_row_id =
        initRowId defaultCfg ∧
      (execute_postprocess_one defaultCfg ["p"] .ok
        ⟨⟨4, 9, some [(1, 3)]⟩, [("p", [("k", [1])])], []⟩).gen.rows_per_tick =
        (⟨(4 : Int), (9 : Int), some [((1 : Int), (3 : Int))]⟩ : WState).rows_per_tick) :=
  ⟨⟨by decide, by decide⟩,
    postprocess_replace defaultCfg ["p"]
      ⟨⟨4, 9, some [(1, 3)]⟩, [("p", [("k", [1])])], []⟩ [(1, 3)]
      (by decide) (by decide) (by decide) (by decide) (by decide)⟩

/-! ## Dependency extraction (`StreamingServer._extract_dependencies`, lines 352–389)

For each table the code scans each column's `data` string for the *first*
occurrence of the literal `foreign_key(` (resp. `copy_from_fk(`), slices up
to the *first* `)` after it, and runs Python `eval` on `"(" + args + ")"`.
`eval` is external dynamic code; it is modelled here for argument lists that
are comma-separated string literals (the DSL's documented forms) — any other
argument list (uninterpretable names, numbers, nesting) is treated as a
failing/ineffective `eval`, matching the `except: pass` (a numeric argument
would only add a non-string graph node, which the sort then ignores).
The model keeps Python's quirk that a parenthesised *single* string literal
is a string, not a tuple, so `parsed[0]` / `parsed[1]` index characters. -/

def squote : Char := Char.ofNat 39

def listFindSub (pat : List Char) : List Char → Option Nat
  | [] => if pat.isPrefixOf ([] : List Char) then some 0 else none
  | c :: cs =>
    if pat.isPrefixOf (c :: cs) then some 0
    else (listFindSub pat cs).map (· + 1)

/-- `cmd[idx + len(fname) + 1 : end_idx]` where `idx = cmd.find(fname + "(")`
and `end_idx = cmd.find(")", idx)`; `none` when either find fails. -/
def extractCallArgs (fname : String) (cmd : String) : Option (List Char) :=
  let cs := cmd.toList
  let pat := fname.toList ++ ['(']
  match listFindSub pat cs with
  | none => none
  | some i =>
    let rest := cs.drop i
    match listFindSub [')'] rest with
    | none => none
    | some j => some ((rest.take j).drop pat.length)

def splitOnComma : List Char → List (List Char)
  | [] => [[]]
  | c :: cs =>
    if c = ',' then [] :: splitOnComma cs
    else
      match splitOnComma cs with
      | [] => [[c]]
      | h :: t => (c :: h) :: t

def trimSpaces (s : List Char) : List Char :=
  ((s.dropWhile (fun c => c = ' ')).reverse.dropWhile (fun c => c = ' ')).reverse

/-- A Python string literal (single- or double-quoted, no embedded quote). -/
def parseStrLit (s : List Char) : Option String :=
  match trimSpaces s with
  | [] => none
  | q :: rest =>
    if (q == squote || q == '"') &&
       (match rest.getLast? with | some q2 => q2 == q | none => false) &&
       !(rest.dropLast.contains q)
    then some (String.mk rest.dropLast)
    else none

/-- Result of Python `eval("(" + args + ")")`: a lone literal stays a string
(no trailing comma in the DSL), two or more become a tuple. -/
inductive PyVal where
  | str (s : String)
  | tup (ls : List String)
deriving DecidableEq, Repr

def evalArgs (args : List Char) : Option PyVal :=
  match (splitOnComma args).mapM parseStrLit with
  | none => none
  | some ls =>
    match ls with
    | [s] => some (.str s)
    | _ => some (.tup ls)

def pyLen : PyVal → Nat
  | .str s => s.length
  | .tup ls => ls.length

def pyIdx : PyVal → Nat → Option String
  | .str s, i => (s.toList[i]?).map (fun c => String.mk [c])
  | .tup ls, i => ls[i]?

/-- The parent contributed by the first `foreign_key(...)` occurrence:
`parsed[0]` when `len(parsed) >= 1`. -/
def fkParentOf (cmd : String) : Option String :=
  match extractCallArgs "foreign_key" cmd with
  | none => none
  | some args =>
    match evalArgs args with
    | none => none
    | some v => if 1 ≤ pyLen v then pyIdx v 0 else none

/-- The parent contributed by the first `copy_from_fk(...)` occurrence:
`parsed[1]` when `len(parsed) >= 2`. -/
def cffkParentOf (cmd : String) : Option String :=
  match extractCallArgs "copy_from_fk" cmd with
  | none => none
  | some args =>
    match evalArgs args with
    | none => none
    | some v => if 2 ≤ pyLen v then pyIdx v 1 else none

def depsAddParent (deps : List (String × List String)) (name : String)
    (p : Option String) : List (String × List String) :=
  match p with
  | none => deps
  | some parent => dset deps name (insertSet ((dget deps name).getD []) parent)

def extract_dependencies (ts : List TableConfig) : List (String × List String) :=
  ts.foldl (fun deps t =>
    let deps1 :=
      if dget deps t.table_name = none then dset deps t.table_name [] else deps
    t.columns.foldl (fun d c =>
      depsAddParent (depsAddParent d t.table_name (fkParentOf c.data))
        t.table_name (cffkParentOf c.data)) deps1) []

/-- The keys of `generators_by_name`, in first-occurrence order. -/
def configuredNames (ts : List TableConfig) : List String :=
  ts.foldl (fun acc t => insertSet acc t.table_name) []

/-! ## Topological sort (`StreamingServer._topological_sort`, lines 391–420)

Kahn's algorithm on `deps : node -> set(parents)`.  Python iterates `set`s in
unspecified order; the model fixes insertion order — every verified property
is independent of the iteration order.  The `while queue:` loop is embedded
with explicit fuel `degSum ind + queue.length`, an upper bound on the number
of iterations proved sufficient below (`kahnLoop_spec`), so the embedded
function returns exactly what the unbounded loop would. -/

def nodesOf (deps : List (String × List String)) : List String :=
  deps.foldl (fun acc kv => kv.2.foldl insertSet acc)
    (deps.foldl (fun acc kv => insertSet acc kv.1) [])

def buildChildren (deps : List (String × List String)) :
    List (String × List String) :=
  deps.foldl
    (fun ch kv =>
      kv.2.foldl (fun ch2 p => dset ch2 p (insertSet ((dget ch2 p).getD []) kv.1)) ch)
    ((nodesOf deps).map (fun n => (n, ([] : List String))))

def buildIndeg (deps : List (String × List String)) : List (String × Int) :=
  deps.foldl
    (fun ind kv =>
      kv.2.foldl (fun ind2 _ => dset ind2 kv.1 ((dget ind2 kv.1).getD 0 + 1)) ind)
    ((nodesOf deps).map (fun n => (n, (0 : Int))))

/-- `for c in children.get(n, set()): indeg[c] -= 1; if indeg[c] == 0: queue.append(c)` -/
def processChildren : List String → List (String × Int) → List String →
    List (String × Int) × List String
  | [], ind, q => (ind, q)
  | c :: cs, ind, q =>
    let d := (dget ind c).getD 0 - 1
    processChildren cs (dset ind c d) (if d = 0 then q ++ [c] else q)

def kahnLoop (conf : List String) (children : List (String × List String)) :
    Nat → List (String × Int) → List String → List String → List String
  | 0, _, _, order => order
  | _ + 1, _, [], order => order
  | fuel + 1, ind, n :: rest, order =>
    let order2 := if n ∈ conf then order ++ [n] else order
    let pc := processChildren ((dget children n).getD []) ind rest
    kahnLoop conf children fuel pc.1 pc.2 order2

def degSum : List (String × Int) → Nat
  | [] => 0
  | kv :: rest => kv.2.toNat + degSum rest

def topological_sort (conf : List String) (deps : List (String × List String)) :
    Except (List String) (List String) :=
  let ind := buildIndeg deps
  let q := (nodesOf deps).filter (fun n => (dget ind n).getD 0 = 0)
  let order := kahnLoop conf (buildChildren deps) (degSum ind + q.length) ind q []
  if order.length = conf.length then .ok order
  else .error (conf.filter (fun n => ¬ n ∈ order))

/-- `_order_generators`' resolver path: extraction followed by the sort. -/
def resolver (ts : List TableConfig) : Except (List String) (List String) :=
  topological_sort (configuredNames ts) (extract_dependencies ts)

/-! ### The claim's reference graph, from the spec's words

Modelled from the spec: the spec's reference graph has an edge `P → C`
whenever *some* column of `C` *contains* a well-formed
`foreign_key(<parent>, <parent_pk>)` / `copy_from_fk(<local_fk_col>, <parent>)`
reference (a call with at least two string-literal arguments), taking
argument 0 (`foreign_key`) resp. argument 1 (`copy_from_fk`) as the parent.
Unlike the code, this scans *all* occurrences, not just the first. -/

def specParseParent (argIdx : Nat) (rest : List Char) : Option String :=
  if rest.contains ')' then
    match (splitOnComma (rest.takeWhile (fun c => !(c == ')')))).mapM parseStrLit with
    | none => none
    | some ls => if 2 ≤ ls.length then ls[argIdx]? else none
  else none

def specScan (pat : List Char) (argIdx : Nat) : List Char → List String
  | [] => []
  | c :: cs =>
    (if pat.isPrefixOf (c :: cs) then
      match specParseParent argIdx ((c :: cs).drop pat.length) with
      | some p => [p]
      | none => []
    else []) ++ specScan pat argIdx cs

def specColParents (cmd : String) : List String :=
  specScan ("foreign_key(".toList) 0 cmd.toList ++
  specScan ("copy_from_fk(".toList) 1 cmd.toList

def specEdges (ts : List TableConfig) : List (String × String) :=
  ts.foldl (fun acc t =>
    acc ++ t.columns.foldl (fun a c =>
      a ++ (specColParents c.data).map (fun p => (p, t.table_name))) []) []

/-- C5 counterexample: table `c` has one column whose data expression contains
two `foreign_key` references; the first, `foreign_key(x, "k")`, is malformed
(`eval` raises `NameError` on `x` and is caught), and the second,
`foreign_key("b", "k")`, is perfectly well-formed.  The code only ever looks
at the *first* occurrence, so it extracts no edge at all; the spec's graph
has the edge `b → c` and is acyclic, yet the resolver returns `[c, b]`,
ordering the configured parent `b` *after* its child `c`. -/
def c5data : String := "foreign_key(x, \"k\") foreign_key(\"b\", \"k\")"

def c5ts : List TableConfig :=
  [{ table_name := "c", columns := [{ column_name := "f", data := c5data }] },
   { table_name := "b" }]

theorem resolver_claim_counterexample :
    (∃ rank : String → Nat, ∀ e ∈ specEdges c5ts, rank e.1 < rank e.2) ∧
    ("b", "c") ∈ specEdges c5ts ∧
    "b" ∈ configuredNames c5ts ∧ "c" ∈ configuredNames c5ts ∧
    extract_dependencies c5ts = [("c", []), ("b", [])] ∧
    resolver c5ts = .ok ["c", "b"] ∧
    ¬ List.Sublist ["b", "c"] ["c", "b"] := by
  refine ⟨⟨fun s => if s = "c" then 1 else 0, by decide⟩,
    by decide, by decide, by decide, by decide, by rfl, by decide⟩

/-! ### Supporting lemmas: insertion-ordered sets and map keys -/

abbrev keysOf (deps : List (String × List String)) : List String :=
  deps.map Prod.fst

theorem mem_insertSet {K : Type} [DecidableEq K] (l : List K) (x y : K) :
    y ∈ insertSet l x ↔ y ∈ l ∨ y = x := by
  unfold insertSet
  by_cases h : x ∈ l
  · simp only [if_pos h]
    constructor
    · exact Or.inl
    · rintro (hy | rfl)
      · exact hy
      · exact h
  · simp [if_neg h]

theorem insertSet_nodup {K : Type} [DecidableEq K] (l : List K) (x : K)
    (h : l.Nodup) : (insertSet l x).Nodup := by
  unfold insertSet
  by_cases hx : x ∈ l
  · simpa [if_pos hx]
  · rw [if_neg hx]
    refine List.nodup_append.mpr ⟨h, List.nodup_singleton x, ?_⟩
    intro a ha hb
    simp only [List.mem_singleton] at hb
    subst hb
    exact hx ha

theorem foldl_insertSet_mem {K : Type} [DecidableEq K] (l : List K) :
    ∀ (acc : List K) (y : K), y ∈ l.foldl insertSet acc ↔ y ∈ acc ∨ y ∈ l := by
  induction l with
  | nil => intro acc y; simp
  | cons x xs ih =>
    intro acc y
    simp only [List.foldl_cons]
    rw [ih (insertSet acc x) y, mem_insertSet]
    simp only [List.mem_cons]
    tauto

theorem foldl_insertSet_nodup {K : Type} [DecidableEq K] (l : List K) :
    ∀ acc : List K, acc.Nodup → (l.foldl insertSet acc).Nodup := by
  induction l with
  | nil => intro acc h; exact h
  | cons x xs ih => intro acc h; exact ih (insertSet acc x) (insertSet_nodup acc x h)

theorem foldl_keys_mem (deps : List (String × List String)) :
    ∀ (acc : List String) (y : String),
      y ∈ deps.foldl (fun a kv => insertSet a kv.1) acc ↔
        y ∈ acc ∨ y ∈ keysOf deps := by
  induction deps with
  | nil => intro acc y; simp
  | cons kv rest ih =>
    intro acc y
    simp only [List.foldl_cons]
    rw [ih (insertSet acc kv.1) y, mem_insertSet]
    simp only [keysOf, List.map_cons, List.mem_cons]
    tauto

theorem foldl_keys_nodup (deps : List (String × List String)) :
    ∀ acc : List String, acc.Nodup →
      (deps.foldl (fun a kv => insertSet a kv.1) acc).Nodup := by
  induction deps with
  | nil => intro acc h; exact h
  | cons kv rest ih =>
    intro acc h; exact ih (insertSet acc kv.1) (insertSet_nodup acc kv.1 h)

theorem foldl_parents_mem (deps : List (String × List String)) :
    ∀ (acc : List String) (y : String),
      y ∈ deps.foldl (fun a kv => kv.2.foldl insertSet a) acc ↔
        y ∈ acc ∨ ∃ kv ∈ deps, y ∈ kv.2 := by
  induction deps with
  | nil => intro acc y; simp
  | cons kv rest ih =>
    intro acc y
    simp only [List.foldl_cons]
    rw [ih (kv.2.foldl insertSet acc) y, foldl_insertSet_mem]
    simp only [List.mem_cons]
    constructor
    · rintro ((h | h) | ⟨kv', hkv', h⟩)
      · exact Or.inl h
      · exact Or.inr ⟨kv, Or.inl rfl, h⟩
      · exact Or.inr ⟨kv', Or.inr hkv', h⟩
    · rintro (h | ⟨kv', hkv' | hkv', h⟩)
      · exact Or.inl (Or.inl h)
      · exact Or.inl (Or.inr (hkv' ▸ h))
      · exact Or.inr ⟨kv', hkv', h⟩

theorem foldl_parents_nodup (deps : List (String × List String)) :
    ∀ acc : List String, acc.Nodup →
      (deps.foldl (fun a kv => kv.2.foldl insertSet a) acc).Nodup := by
  induction deps with
  | nil => intro acc h; exact h
  | cons kv rest ih =>
    intro acc h
    exact ih (kv.2.foldl insertSet acc) (foldl_insertSet_nodup kv.2 acc h)

theorem mem_nodesOf (deps : List (String × List String)) (y : String) :
    y ∈ nodesOf deps ↔ y ∈ keysOf deps ∨ ∃ kv ∈ deps, y ∈ kv.2 := by
  unfold nodesOf
  rw [foldl_parents_mem, foldl_keys_mem]
  simp

theorem nodesOf_nodup (deps : List (String × List String)) :
    (nodesOf deps).Nodup :=
  foldl_parents_nodup deps _ (foldl_keys_nodup deps [] (by simp))

theorem dget_some_mem {K V : Type} [DecidableEq K] (l : List (K × V)) (k : K)
    (v : V) (h : dget l k = some v) : (k, v) ∈ l := by
  induction l with
  | nil => simp [dget] at h
  | cons kv rest ih =>
    obtain ⟨k', v'⟩ := kv
    by_cases hk : k' = k
    · subst hk
      have hd : dget ((k', v') :: rest) k' = some v' := by simp [dget]
      rw [hd] at h
      injection h with h
      subst h; simp
    · simp only [dget, if_neg hk] at h
      simp [ih h]

theorem dget_none_iff {K V : Type} [DecidableEq K] (l : List (K × V)) (k : K) :
    dget l k = none ↔ k ∉ l.map Prod.fst := by
  constructor
  · intro h hm
    induction l with
    | nil => simp at hm
    | cons kv rest ih =>
      obtain ⟨k', v'⟩ := kv
      by_cases hk : k' = k
      · simp [dget, hk] at h
      · simp only [dget, if_neg hk] at h
        simp only [List.map_cons, List.mem_cons] at hm
        rcases hm with hm | hm
        · exact hk hm.symm
        · exact ih h hm
  · exact dget_eq_none_of_not_mem l k

/-- Parents of a node: `deps.get(n, [])` as the sort sees them. -/
def pOf (deps : List (String × List String)) (n : String) : List String :=
  (dget deps n).getD []

theorem pOf_eq_of_mem (deps : List (String × List String))
    (kv : String × List String) (h : kv ∈ deps) (hnd : (keysOf deps).Nodup) :
    pOf deps kv.1 = kv.2 := by
  induction deps with
  | nil => simp at h
  | cons kv' rest ih =>
    obtain ⟨k', v'⟩ := kv'
    simp only [keysOf, List.map_cons, List.nodup_cons] at hnd
    rcases List.mem_cons.mp h with heq | htail
    · rw [heq]
      simp [pOf, dget]
    · have hmem : kv.1 ∈ List.map Prod.fst rest := List.mem_map_of_mem Prod.fst htail
      have hk : ¬ (k' = kv.1) := by
        intro hkk
        refine hnd.1 ?_
        rw [hkk]
        exact hmem
      simp only [pOf, dget, if_neg hk]
      exact ih htail hnd.2

theorem mem_keys_of_pOf_mem (deps : List (String × List String)) (n p : String)
    (h : p ∈ pOf deps n) : n ∈ keysOf deps := by
  unfold pOf at h
  cases hd : dget deps n with
  | none => rw [hd] at h; simp at h
  | some l =>
    exact List.mem_map_of_mem Prod.fst (dget_some_mem deps n l hd)

theorem pOf_nodup (deps : List (String × List String)) (n : String)
    (HP : ∀ kv ∈ deps, kv.2.Nodup) : (pOf deps n).Nodup := by
  unfold pOf
  cases hd : dget deps n with
  | none => simp
  | some l => exact HP (n, l) (dget_some_mem deps n l hd)

theorem pOf_subset_nodes (deps : List (String × List String)) (n p : String)
    (h : p ∈ pOf deps n) : p ∈ nodesOf deps := by
  rw [mem_nodesOf]
  unfold pOf at h
  cases hd : dget deps n with
  | none => rw [hd] at h; simp at h
  | some l =>
    rw [hd] at h
    exact Or.inr ⟨(n, l), dget_some_mem deps n l hd, h⟩

theorem keys_subset_nodes (deps : List (String × List String)) (n : String)
    (h : n ∈ keysOf deps) : n ∈ nodesOf deps := by
  rw [mem_nodesOf]; exact Or.inl h

/-! ### Supporting lemmas: the children map and the in-degree map -/

/-- Children of a node as the sort sees them: `children.get(n, set())`. -/
def chOf (deps : List (String × List String)) (p : String) : List String :=
  (dget (buildChildren deps) p).getD []

theorem foldl_addChild_mem (c0 : String) :
    ∀ (ps : List String) (ch : List (String × List String)) (q c : String),
      (c ∈ (dget (ps.foldl
          (fun ch2 p => dset ch2 p (insertSet ((dget ch2 p).getD []) c0)) ch) q).getD []
        ↔ c ∈ (dget ch q).getD [] ∨ (q ∈ ps ∧ c = c0)) := by
  intro ps
  induction ps with
  | nil => intro ch q c; simp
  | cons p ps ih =>
    intro ch q c
    simp only [List.foldl_cons]
    rw [ih]
    by_cases hq : q = p
    · subst hq
      rw [dget_dset_self, Option.getD_some, mem_insertSet]
      simp only [List.mem_cons]
      tauto
    · rw [dget_dset_ne ch p q _ (fun h => hq h.symm)]
      simp only [List.mem_cons]
      tauto

theorem foldl_addChild_nodup (c0 : String) :
    ∀ (ps : List String) (ch : List (String × List String)),
      (∀ q, ((dget ch q).getD []).Nodup) →
      ∀ q, ((dget (ps.foldl
          (fun ch2 p => dset ch2 p (insertSet ((dget ch2 p).getD []) c0)) ch) q).getD []).Nodup := by
  intro ps
  induction ps with
  | nil => intro ch h q; exact h q
  | cons p ps ih =>
    intro ch h q
    simp only [List.foldl_cons]
    refine ih _ ?_ q
    intro q'
    by_cases hq : q' = p
    · subst hq
      rw [dget_dset_self, Option.getD_some]
      exact insertSet_nodup _ _ (h q')
    · rw [dget_dset_ne ch p q' _ (fun hh => hq hh.symm)]
      exact h q'

theorem buildChildren_fold_mem :
    ∀ (l : List (String × List String)) (ch : List (String × List String)) (q c : String),
      c ∈ (dget (l.foldl
          (fun ch kv => kv.2.foldl
            (fun ch2 p => dset ch2 p (insertSet ((dget ch2 p).getD []) kv.1)) ch) ch) q).getD []
        ↔ c ∈ (dget ch q).getD [] ∨ ∃ kv ∈ l, kv.1 = c ∧ q ∈ kv.2 := by
  intro l
  induction l with
  | nil => intro ch q c; simp
  | cons kv rest ih =>
    intro ch q c
    simp only [List.foldl_cons]
    rw [ih, foldl_addChild_mem]
    simp only [List.mem_cons]
    constructor
    · rintro ((h | ⟨hq, rfl⟩) | ⟨kv', hkv', hc, hq⟩)
      · exact Or.inl h
      · exact Or.inr ⟨kv, Or.inl rfl, rfl, hq⟩
      · exact Or.inr ⟨kv', Or.inr hkv', hc, hq⟩
    · rintro (h | ⟨kv', hkv' | hkv', hc, hq⟩)
      · exact Or.inl (Or.inl h)
      · subst hkv'; exact Or.inl (Or.inr ⟨hq, hc.symm⟩)
      · exact Or.inr ⟨kv', hkv', hc, hq⟩

theorem dget_init_children :
    ∀ (ns : List String) (q : String),
      (dget (ns.map (fun n => (n, ([] : List String)))) q).getD [] = [] := by
  intro ns
  induction ns with
  | nil => intro q; simp [dget]
  | cons n ns ih =>
    intro q
    by_cases hq : n = q
    · simp [dget, hq]
    · simp only [List.map_cons, dget, if_neg hq]
      exact ih q

theorem mem_chOf (deps : List (String × List String))
    (HK : (keysOf deps).Nodup) (p c : String) :
    c ∈ chOf deps p ↔ c ∈ keysOf deps ∧ p ∈ pOf deps c := by
  unfold chOf buildChildren
  rw [buildChildren_fold_mem, dget_init_children]
  simp only [List.not_mem_nil, false_or]
  constructor
  · rintro ⟨kv, hkv, rfl, hp⟩
    refine ⟨List.mem_map_of_mem Prod.fst hkv, ?_⟩
    rw [pOf_eq_of_mem deps kv hkv HK]
    exact hp
  · rintro ⟨hc, hp⟩
    obtain ⟨kv, hkv, hc1⟩ := List.mem_map.mp hc
    refine ⟨kv, hkv, hc1, ?_⟩
    rw [← hc1] at hp
    rw [pOf_eq_of_mem deps kv hkv HK] at hp
    exact hp

theorem chOf_nodup (deps : List (String × List String)) (p : String) :
    (chOf deps p).Nodup := by
  unfold chOf buildChildren
  suffices h : ∀ (l : List (String × List String)) (ch : List (String × List String)),
      (∀ q, ((dget ch q).getD []).Nodup) →
      ∀ q, ((dget (l.foldl
          (fun ch kv => kv.2.foldl
            (fun ch2 p => dset ch2 p (insertSet ((dget ch2 p).getD []) kv.1)) ch) ch) q).getD []).Nodup by
    refine h deps _ ?_ p
    intro q
    rw [dget_init_children]
    simp
  intro l
  induction l with
  | nil => intro ch h q; exact h q
  | cons kv rest ih =>
    intro ch h q
    simp only [List.foldl_cons]
    exact ih _ (foldl_addChild_nodup kv.1 kv.2 ch h) q

theorem foldl_incr_get (k : String) :
    ∀ (ps : List String) (ind : List (String × Int)) (q : String),
      (q ≠ k →
        dget (ps.foldl (fun ind2 _ => dset ind2 k ((dget ind2 k).getD 0 + 1)) ind) q
          = dget ind q) ∧
      (q = k → (dget ind k).isSome →
        dget (ps.foldl (fun ind2 _ => dset ind2 k ((dget ind2 k).getD 0 + 1)) ind) q
          = some ((dget ind k).getD 0 + ps.length)) := by
  intro ps
  induction ps with
  | nil =>
    intro ind q
    refine ⟨fun _ => rfl, fun hq hs => ?_⟩
    subst hq
    obtain ⟨v, hv⟩ := Option.isSome_iff_exists.mp hs
    simp [hv]
  | cons p ps ih =>
    intro ind q
    simp only [List.foldl_cons]
    constructor
    · intro hq
      rw [(ih _ q).1 hq, dget_dset_ne ind k q _ (fun h => hq h.symm)]
    · intro hq hs
      subst hq
      rw [(ih _ q).2 rfl (by rw [dget_dset_self]; rfl)]
      rw [dget_dset_self, Option.getD_some]
      congr 1
      rw [List.length_cons]
      push_cast
      ring

theorem buildIndeg_fold_get :
    ∀ (l : List (String × List String)) (ind : List (String × Int)) (q : String),
      (keysOf l).Nodup →
      ((q ∉ keysOf l →
        dget (l.foldl (fun ind kv => kv.2.foldl
          (fun ind2 _ => dset ind2 kv.1 ((dget ind2 kv.1).getD 0 + 1)) ind) ind) q
          = dget ind q) ∧
       (∀ ps, dget l q = some ps → (dget ind q).isSome →
        dget (l.foldl (fun ind kv => kv.2.foldl
          (fun ind2 _ => dset ind2 kv.1 ((dget ind2 kv.1).getD 0 + 1)) ind) ind) q
          = some ((dget ind q).getD 0 + ps.length))) := by
  intro l
  induction l with
  | nil =>
    intro ind q _
    exact ⟨fun _ => rfl, fun ps hps _ => by simp [dget] at hps⟩
  | cons kv rest ih =>
    intro ind q hnd
    obtain ⟨k0, v0⟩ := kv
    simp only [keysOf, List.map_cons, List.nodup_cons] at hnd
    simp only [List.foldl_cons]
    constructor
    · intro hq
      simp only [keysOf, List.map_cons, List.mem_cons] at hq
      push_neg at hq
      rw [(ih _ q hnd.2).1 hq.2, (foldl_incr_get k0 v0 ind q).1 hq.1]
    · intro ps hps hs
      by_cases hq : q = k0
      · subst hq
        have hdq : dget ((q, v0) :: rest) q = some v0 := by simp [dget]
        rw [hdq] at hps
        injection hps with hps2
        subst hps2
        rw [(ih _ q hnd.2).1 hnd.1]
        exact (foldl_incr_get q v0 ind q).2 rfl hs
      · have hk0 : ¬ (k0 = q) := fun h => hq h.symm
        have hps' : dget rest q = some ps := by
          simpa [dget, hk0] using hps
        have hind1 : dget (v0.foldl
            (fun ind2 _ => dset ind2 k0 ((dget ind2 k0).getD 0 + 1)) ind) q
            = dget ind q := (foldl_incr_get k0 v0 ind q).1 hq
        rw [(ih _ q hnd.2).2 ps hps' (by rw [hind1]; exact hs), hind1]

theorem dget_init_indeg :
    ∀ (ns : List String) (q : String), q ∈ ns →
      dget (ns.map (fun n => (n, (0 : Int)))) q = some 0 := by
  intro ns
  induction ns with
  | nil => intro q hq; simp at hq
  | cons n ns ih =>
    intro q hq
    by_cases hn : n = q
    · simp [dget, hn]
    · simp only [List.map_cons, dget, if_neg hn]
      exact ih q (by rcases List.mem_cons.mp hq with h | h; exact absurd h.symm hn; exact h)

theorem buildIndeg_get (deps : List (String × List String))
    (HK : (keysOf deps).Nodup) (n : String) (hn : n ∈ nodesOf deps) :
    dget (buildIndeg deps) n = some ((pOf deps n).length : Int) := by
  unfold buildIndeg
  have hinit : dget ((nodesOf deps).map (fun n => (n, (0 : Int)))) n = some 0 :=
    dget_init_indeg (nodesOf deps) n hn
  by_cases hk : n ∈ keysOf deps
  · have hex : ∃ ps, dget deps n = some ps := by
      cases hd : dget deps n with
      | none => exact absurd ((dget_none_iff deps n).mp hd) (fun h => h hk)
      | some ps => exact ⟨ps, rfl⟩
    obtain ⟨ps, hps⟩ := hex
    rw [(buildIndeg_fold_get deps _ n HK).2 ps hps (by rw [hinit]; rfl), hinit]
    simp [pOf, hps]
  · rw [(buildIndeg_fold_get deps _ n HK).1 hk, hinit]
    have hpo : pOf deps n = [] := by
      simp [pOf, (dget_none_iff deps n).mpr hk]
    simp [hpo]

/-! ### Supporting lemmas: one loop iteration and its termination measure -/

theorem degSum_dset (l : List (String × Int)) (k : String) (v : Int) :
    degSum (dset l k v) + ((dget l k).getD 0).toNat = degSum l + v.toNat := by
  induction l with
  | nil => simp [dset, degSum, dget]
  | cons kv rest ih =>
    obtain ⟨k', v'⟩ := kv
    by_cases hk : k' = k
    · subst hk
      simp [dset, degSum, dget]
      omega
    · simp only [dset, if_neg hk, degSum, dget, if_neg hk]
      omega

theorem processChildren_spec :
    ∀ (cs : List String) (ind : List (String × Int)) (q : List String),
      cs.Nodup →
      ((∀ m, dget (processChildren cs ind q).1 m =
          if m ∈ cs then some ((dget ind m).getD 0 - 1) else dget ind m) ∧
       (processChildren cs ind q).2 =
          q ++ cs.filter (fun c => (dget ind c).getD 0 = 1) ∧
       degSum (processChildren cs ind q).1 + (processChildren cs ind q).2.length ≤
          degSum ind + q.length) := by
  intro cs
  induction cs with
  | nil =>
    intro ind q _
    refine ⟨fun m => by simp [processChildren], by simp [processChildren], ?_⟩
    exact le_refl _
  | cons c cs ih =>
    intro ind q hnd
    have hc : c ∉ cs := (List.nodup_cons.mp hnd).1
    have hnd' : cs.Nodup := (List.nodup_cons.mp hnd).2
    simp only [processChildren]
    set d := (dget ind c).getD 0 - 1 with hd
    set ind1 := dset ind c d with hind1
    set q1 := (if d = 0 then q ++ [c] else q) with hq1
    obtain ⟨iha, ihb, ihc⟩ := ih ind1 q1 hnd'
    have hget1 : ∀ m, m ≠ c → dget ind1 m = dget ind m := by
      intro m hm
      rw [hind1, dget_dset_ne ind c m d (fun h => hm h.symm)]
    refine ⟨?_, ?_, ?_⟩
    · intro m
      rw [iha m]
      by_cases hm : m ∈ cs
      · have hmc : m ≠ c := fun h => hc (h ▸ hm)
        rw [if_pos hm, if_pos (by simp [hm]), hget1 m hmc]
      · by_cases hmc : m = c
        · subst hmc
          rw [if_neg hm, if_pos (by simp), hind1, dget_dset_self]
        · rw [if_neg hm, if_neg (by simp [hm, hmc]), hget1 m hmc]
    · rw [ihb]
      have hfc : cs.filter (fun c' => (dget ind1 c').getD 0 = 1) =
          cs.filter (fun c' => (dget ind c').getD 0 = 1) := by
        refine List.filter_congr ?_
        intro c' hc'
        have : c' ≠ c := fun h => hc (h ▸ hc')
        rw [hget1 c' this]
      rw [hfc, hq1]
      by_cases hcase : (dget ind c).getD 0 = 1
      · have hd0 : d = 0 := by omega
        rw [if_pos hd0]
        rw [List.filter_cons_of_pos (by simp [hcase])]
        simp [List.append_assoc]
      · have hd0 : ¬ d = 0 := by omega
        rw [if_neg hd0]
        rw [List.filter_cons_of_neg (by simp [hcase])]
    · refine le_trans ihc ?_
      have heq := degSum_dset ind c d
      rw [← hind1] at heq
      have hq1len : q1.length = q.length + (if d = 0 then 1 else 0) := by
        rw [hq1]
        by_cases hd0 : d = 0 <;> simp [hd0]
      rw [hq1len]
      by_cases hd0 : d = 0
      · rw [if_pos hd0]
        omega
      · rw [if_neg hd0]
        omega

/-! ### The Kahn loop invariant -/

/-- A list is topologically sorted w.r.t. `deps`: every element's parents
occur strictly before it. -/
def topoOk (deps : List (String × List String)) (l : List String) : Prop :=
  ∀ c ∈ l, ∀ p ∈ pOf deps c, List.Sublist [p, c] l

theorem topoOk_mem (deps : List (String × List String)) (l : List String)
    (h : topoOk deps l) (c : String) (hc : c ∈ l) (p : String)
    (hp : p ∈ pOf deps c) : p ∈ l :=
  (h c hc p hp).subset (by simp)

theorem topoOk_append (deps : List (String × List String)) (done : List String)
    (n : String) (h : topoOk deps done) (hp : ∀ p ∈ pOf deps n, p ∈ done) :
    topoOk deps (done ++ [n]) := by
  intro c hc p hpp
  rcases List.mem_append.mp hc with hc | hc
  · exact (h c hc p hpp).trans (List.sublist_append_left done [n])
  · simp only [List.mem_singleton] at hc
    subst hc
    exact List.Sublist.append (List.singleton_sublist.mpr (hp p hpp))
      (List.Sublist.refl [c])

theorem length_filter_remove (n : String) :
    ∀ (l done : List String), l.Nodup → n ∉ done →
      (l.filter (fun p => ¬ p ∈ done ++ [n])).length + (if n ∈ l then 1 else 0)
        = (l.filter (fun p => ¬ p ∈ done)).length := by
  intro l
  induction l with
  | nil => intro done _ _; simp
  | cons x xs ih =>
    intro done hnd hn
    have hx : x ∉ xs := (List.nodup_cons.mp hnd).1
    have hnd' : xs.Nodup := (List.nodup_cons.mp hnd).2
    have hih := ih done hnd' hn
    by_cases hxn : x = n
    · subst hxn
      rw [List.filter_cons_of_neg (by simp),
        List.filter_cons_of_pos (by simp [hn]),
        if_pos (List.mem_cons_self x xs)]
      have hcong : xs.filter (fun p => ¬ p ∈ done ++ [x]) =
          xs.filter (fun p => ¬ p ∈ done) := by
        refine List.filter_congr ?_
        intro p hp
        have hpx : ¬ (p = x) := fun h => hx (h ▸ hp)
        simp [hpx]
      rw [hcong, List.length_cons]
    · have hnns : (if n ∈ x :: xs then (1 : Nat) else 0) =
          (if n ∈ xs then 1 else 0) := by
        by_cases h : n ∈ xs
        · rw [if_pos h, if_pos (List.mem_cons_of_mem x h)]
        · rw [if_neg h, if_neg (fun hc => by
            rcases List.mem_cons.mp hc with h1 | h1
            · exact hxn h1.symm
            · exact h h1)]
      rw [hnns]
      by_cases hxd : x ∈ done
      · rw [List.filter_cons_of_neg (by simp [hxd]),
          List.filter_cons_of_neg (by simp [hxd])]
        exact hih
      · rw [List.filter_cons_of_pos (by simp [hxd, hxn]),
          List.filter_cons_of_pos (by simp [hxd])]
        simp only [List.length_cons]
        omega

/-- The Kahn loop invariant: `done` is the list of popped nodes so far. -/
structure KahnInv (deps : List (String × List String))
    (done q : List String) (ind : List (String × Int)) : Prop where
  ind_count : ∀ n ∈ nodesOf deps, dget ind n =
    some (((pOf deps n).filter (fun p => ¬ p ∈ done)).length : Int)
  done_nodup : done.Nodup
  q_nodup : q.Nodup
  q_fresh : ∀ n ∈ q, n ∉ done
  q_nodes : ∀ n ∈ q, n ∈ nodesOf deps
  q_ready : ∀ n ∈ q, ∀ p ∈ pOf deps n, p ∈ done
  complete : ∀ n ∈ nodesOf deps,
    (pOf deps n).filter (fun p => ¬ p ∈ done) = [] → n ∈ done ∨ n ∈ q
  done_nodes : ∀ x ∈ done, x ∈ nodesOf deps
  done_topo : topoOk deps done

theorem kahnInv_closure (deps : List (String × List String))
    (done : List String) (ind : List (String × Int))
    (inv : KahnInv deps done [] ind) :
    ∀ n ∈ nodesOf deps, n ∉ done → ∃ p, p ∈ pOf deps n ∧ p ∉ done := by
  intro n hn hnd
  by_cases hf : (pOf deps n).filter (fun p => ¬ p ∈ done) = []
  · rcases inv.complete n hn hf with h | h
    · exact absurd h hnd
    · simp at h
  · obtain ⟨p, hp⟩ := List.exists_mem_of_ne_nil _ hf
    have hm := List.mem_filter.mp hp
    refine ⟨p, hm.1, ?_⟩
    simpa using hm.2

theorem kahnLoop_spec (deps : List (String × List String)) (conf : List String)
    (HK : (keysOf deps).Nodup) (HP : ∀ kv ∈ deps, kv.2.Nodup) :
    ∀ (fuel : Nat) (ind : List (String × Int)) (q done : List String),
      KahnInv deps done q ind →
      degSum ind + q.length ≤ fuel →
      ∃ doneF : List String,
        kahnLoop conf (buildChildren deps) fuel ind q
            (done.filter (fun x => x ∈ conf))
          = doneF.filter (fun x => x ∈ conf) ∧
        doneF.Nodup ∧ (∀ x ∈ doneF, x ∈ nodesOf deps) ∧
        topoOk deps doneF ∧
        (∀ x ∈ done, x ∈ doneF) ∧
        (∀ n ∈ nodesOf deps, n ∉ doneF → ∃ p, p ∈ pOf deps n ∧ p ∉ doneF) := by
  intro fuel
  induction fuel with
  | zero =>
    intro ind q done inv hfuel
    have hq : q = [] := by
      cases q with
      | nil => rfl
      | cons a as => simp [List.length_cons] at hfuel
    subst hq
    exact ⟨done, rfl, inv.done_nodup, inv.done_nodes, inv.done_topo,
      fun x hx => hx, kahnInv_closure deps done ind inv⟩
  | succ fuel ih =>
    intro ind q done inv hfuel
    cases q with
    | nil =>
      exact ⟨done, rfl, inv.done_nodup, inv.done_nodes, inv.done_topo,
        fun x hx => hx, kahnInv_closure deps done ind inv⟩
    | cons n rest =>
      have hn_nodes : n ∈ nodesOf deps := inv.q_nodes n (by simp)
      have hn_ready : ∀ p ∈ pOf deps n, p ∈ done := inv.q_ready n (by simp)
      have hn_fresh : n ∉ done := inv.q_fresh n (by simp)
      have hn_rest : n ∉ rest := (List.nodup_cons.mp inv.q_nodup).1
      have hrest_nodup : rest.Nodup := (List.nodup_cons.mp inv.q_nodup).2
      have hnn : n ∉ pOf deps n := fun h => hn_fresh (hn_ready n h)
      set cs := (dget (buildChildren deps) n).getD [] with hcs
      have hchof : chOf deps n = cs := rfl
      have hcs_nodup : cs.Nodup := by rw [← hchof]; exact chOf_nodup deps n
      have hcs_mem : ∀ c, c ∈ cs ↔ n ∈ pOf deps c := by
        intro c
        rw [← hchof]
        constructor
        · intro h; exact ((mem_chOf deps HK n c).mp h).2
        · intro h
          exact (mem_chOf deps HK n c).mpr
            ⟨mem_keys_of_pOf_mem deps c n h, h⟩
      obtain ⟨pca, pcb, pcc⟩ := processChildren_spec cs ind rest hcs_nodup
      set ind' := (processChildren cs ind rest).1 with hind'
      set q' := (processChildren cs ind rest).2 with hq'
      set done' := done ++ [n] with hdone'
      have hdone'_mem : ∀ x, x ∈ done' ↔ x ∈ done ∨ x = n := by
        intro x; rw [hdone']; simp
      -- the new in-degree map counts parents outside done'
      have hcount : ∀ m ∈ nodesOf deps, dget ind' m =
          some (((pOf deps m).filter (fun p => ¬ p ∈ done')).length : Int) := by
        intro m hm
        rw [pca m]
        have hlfr := length_filter_remove n (pOf deps m) done
          (pOf_nodup deps m HP) hn_fresh
        by_cases hmc : m ∈ cs
        · have hnp : n ∈ pOf deps m := (hcs_mem m).mp hmc
          rw [if_pos hmc, inv.ind_count m hm, hdone']
          rw [if_pos hnp] at hlfr
          simp only [Option.getD_some, Option.some.injEq]
          omega
        · have hnp : ¬ n ∈ pOf deps m := fun h => hmc ((hcs_mem m).mpr h)
          rw [if_neg hmc, inv.ind_count m hm]
          have hfeq : (pOf deps m).filter (fun p => ¬ p ∈ done') =
              (pOf deps m).filter (fun p => ¬ p ∈ done) := by
            refine List.filter_congr ?_
            intro p hp
            have hpn : ¬ (p = n) := fun h => hnp (h ▸ hp)
            simp [hdone'_mem, hpn]
          rw [hfeq]
      -- the pushed nodes
      have hpush : ∀ c, c ∈ cs.filter (fun c => (dget ind c).getD 0 = 1) ↔
          (c ∈ cs ∧ ((pOf deps c).filter (fun p => ¬ p ∈ done)).length = 1) := by
        intro c
        rw [List.mem_filter]
        constructor
        · rintro ⟨h1, h2⟩
          refine ⟨h1, ?_⟩
          have hcn : c ∈ nodesOf deps := keys_subset_nodes deps c
            (mem_keys_of_pOf_mem deps c n ((hcs_mem c).mp h1))
          rw [inv.ind_count c hcn] at h2
          simp only [Option.getD_some, decide_eq_true_eq] at h2
          exact_mod_cast h2
        · rintro ⟨h1, h2⟩
          refine ⟨h1, ?_⟩
          have hcn : c ∈ nodesOf deps := keys_subset_nodes deps c
            (mem_keys_of_pOf_mem deps c n ((hcs_mem c).mp h1))
          rw [inv.ind_count c hcn]
          simp only [Option.getD_some, decide_eq_true_eq]
          exact_mod_cast h2
      have hpush_not_done : ∀ c ∈ cs, c ∉ done' := by
        intro c hc hcd
        have hnp : n ∈ pOf deps c := (hcs_mem c).mp hc
        rcases (hdone'_mem c).mp hcd with h | h
        · exact hn_fresh (topoOk_mem deps done inv.done_topo c h n hnp)
        · subst h; exact hnn hnp
      have inv' : KahnInv deps done' q' ind' := by
        refine ⟨hcount, ?_, ?_, ?_, ?_, ?_, ?_, ?_, ?_⟩
        · rw [hdone']
          refine List.nodup_append.mpr ⟨inv.done_nodup, List.nodup_singleton n, ?_⟩
          intro a ha hb
          simp only [List.mem_singleton] at hb
          subst hb
          exact hn_fresh ha
        · rw [pcb]
          refine List.nodup_append.mpr
            ⟨hrest_nodup, List.Nodup.filter _ hcs_nodup, ?_⟩
          intro a ha hb
          have hacs : a ∈ cs := (List.mem_filter.mp hb).1
          have hnp : n ∈ pOf deps a := (hcs_mem a).mp hacs
          exact hn_fresh (inv.q_ready a (by simp [ha]) n hnp)
        · intro m hm
          rw [pcb] at hm
          rcases List.mem_append.mp hm with hm1 | hm1
          · intro hc
            rcases (hdone'_mem m).mp hc with h | h
            · exact inv.q_fresh m (by simp [hm1]) h
            · subst h; exact hn_rest hm1
          · exact hpush_not_done m (List.mem_filter.mp hm1).1
        · intro m hm
          rw [pcb] at hm
          rcases List.mem_append.mp hm with hm1 | hm1
          · exact inv.q_nodes m (by simp [hm1])
          · have hacs : m ∈ cs := (List.mem_filter.mp hm1).1
            exact keys_subset_nodes deps m
              (mem_keys_of_pOf_mem deps m n ((hcs_mem m).mp hacs))
        · intro m hm p hp
          rw [pcb] at hm
          rcases List.mem_append.mp hm with hm1 | hm1
          · exact (hdone'_mem p).mpr (Or.inl (inv.q_ready m (by simp [hm1]) p hp))
          · obtain ⟨hacs, hlen⟩ := (hpush m).mp hm1
            have hnp : n ∈ pOf deps m := (hcs_mem m).mp hacs
            have hlfr := length_filter_remove n (pOf deps m) done
              (pOf_nodup deps m HP) hn_fresh
            rw [if_pos hnp] at hlfr
            have hzero : ((pOf deps m).filter (fun p => ¬ p ∈ done')).length = 0 := by
              rw [hdone']; omega
            have hnil := List.length_eq_zero.mp hzero
            have := List.filter_eq_nil_iff.mp hnil p hp
            simpa using this
        · intro m hm hf'
          by_cases hnp : n ∈ pOf deps m
          · have hmc : m ∈ cs := (hcs_mem m).mpr hnp
            have hlfr := length_filter_remove n (pOf deps m) done
              (pOf_nodup deps m HP) hn_fresh
            rw [if_pos hnp] at hlfr
            have hf'0 : ((pOf deps m).filter (fun p => ¬ p ∈ done')).length = 0 := by
              rw [hf']; rfl
            rw [hdone'] at hf'0
            have hlen1 : ((pOf deps m).filter (fun p => ¬ p ∈ done)).length = 1 := by
              omega
            refine Or.inr ?_
            rw [pcb]
            exact List.mem_append.mpr (Or.inr ((hpush m).mpr ⟨hmc, hlen1⟩))
          · have hfeq : (pOf deps m).filter (fun p => ¬ p ∈ done) =
                (pOf deps m).filter (fun p => ¬ p ∈ done') := by
              refine List.filter_congr ?_
              intro p hp
              have hpn : ¬ (p = n) := fun h => hnp (h ▸ hp)
              simp [hdone'_mem, hpn]
            rcases inv.complete m hm (hfeq.symm ▸ hf') with h | h
            · exact Or.inl ((hdone'_mem m).mpr (Or.inl h))
            · rcases List.mem_cons.mp h with h | h
              · exact Or.inl ((hdone'_mem m).mpr (Or.inr h))
              · refine Or.inr ?_
                rw [pcb]
                exact List.mem_append.mpr (Or.inl h)
        · intro x hx
          rcases (hdone'_mem x).mp hx with h | h
          · exact inv.done_nodes x h
          · subst h; exact hn_nodes
        · rw [hdone']
          exact topoOk_append deps done n inv.done_topo hn_ready
      have hmeas : degSum ind' + q'.length ≤ fuel := by
        have h1 : degSum ind' + q'.length ≤ degSum ind + rest.length := pcc
        have h2 : degSum ind + (n :: rest).length ≤ fuel + 1 := hfuel
        simp only [List.length_cons] at h2
        omega
      obtain ⟨doneF, heq, hFnodup, hFnodes, hFtopo, hFsup, hFclosure⟩ :=
        ih ind' q' done' inv' hmeas
      refine ⟨doneF, ?_, hFnodup, hFnodes, hFtopo, ?_, hFclosure⟩
      · simp only [kahnLoop]
        have horder : (if n ∈ conf then
              done.filter (fun x => x ∈ conf) ++ [n]
            else done.filter (fun x => x ∈ conf))
            = done'.filter (fun x => x ∈ conf) := by
          rw [hdone', List.filter_append]
          by_cases hconf : n ∈ conf
          · rw [if_pos hconf]
            congr 1
            simp [hconf]
          · rw [if_neg hconf]
            simp [hconf]
        rw [horder]
        exact heq
      · intro x hx
        exact hFsup x ((hdone'_mem x).mpr (Or.inl hx))

theorem exists_min_rank (rank : String → Nat) :
    ∀ (l : List String), l ≠ [] → ∃ u ∈ l, ∀ x ∈ l, rank u ≤ rank x := by
  intro l
  induction l with
  | nil => intro h; exact absurd rfl h
  | cons x xs ih =>
    intro _
    cases xs with
    | nil => exact ⟨x, by simp, by simp⟩
    | cons y ys =>
      obtain ⟨u, hu, hmin⟩ := ih (by simp)
      by_cases h : rank x ≤ rank u
      · refine ⟨x, by simp, ?_⟩
        intro z hz
        rcases List.mem_cons.mp hz with heq | hz2
        · rw [heq]
        · exact le_trans h (hmin z hz2)
      · refine ⟨u, by simp [hu], ?_⟩
        intro z hz
        rcases List.mem_cons.mp hz with heq | hz2
        · rw [heq]; omega
        · exact hmin z hz2

theorem topological_sort_spec (deps : List (String × List String))
    (conf : List String)
    (HK : (keysOf deps).Nodup) (HP : ∀ kv ∈ deps, kv.2.Nodup)
    (hconf_nodup : conf.Nodup)
    (hconf_iff : ∀ x, x ∈ conf ↔ x ∈ keysOf deps)
    (hrank : ∃ rank : String → Nat, ∀ kv ∈ deps, ∀ p ∈ kv.2, rank p < rank kv.1) :
    ∃ order, topological_sort conf deps = .ok order ∧
      order.Nodup ∧ (∀ x, x ∈ order ↔ x ∈ conf) ∧
      (∀ kv ∈ deps, ∀ p ∈ kv.2, p ∈ conf → List.Sublist [p, kv.1] order) := by
  obtain ⟨rank, hrank⟩ := hrank
  have hedge : ∀ c p, p ∈ pOf deps c → rank p < rank c := by
    intro c p hp
    unfold pOf at hp
    cases hd : dget deps c with
    | none => rw [hd] at hp; simp at hp
    | some l =>
      rw [hd] at hp
      exact hrank (c, l) (dget_some_mem deps c l hd) p hp
  set ind := buildIndeg deps with hind
  set q0 := (nodesOf deps).filter (fun n => (dget ind n).getD 0 = 0) with hq0
  have hfid : ∀ l : List String, l.filter (fun p => ¬ p ∈ ([] : List String)) = l :=
    fun l => List.filter_eq_self.mpr (fun a _ => by simp)
  have hq0par : ∀ n ∈ q0, pOf deps n = [] := by
    intro n hn
    have hmf := List.mem_filter.mp hn
    have hcn := buildIndeg_get deps HK n hmf.1
    have hg : (dget ind n).getD 0 = 0 := by simpa using hmf.2
    rw [hcn] at hg
    simp only [Option.getD_some] at hg
    have : (pOf deps n).length = 0 := by exact_mod_cast hg
    exact List.length_eq_zero.mp this
  have inv0 : KahnInv deps [] q0 ind := by
    refine ⟨?_, List.nodup_nil, ?_, ?_, ?_, ?_, ?_, ?_, ?_⟩
    · intro n hn
      rw [hfid (pOf deps n)]
      exact buildIndeg_get deps HK n hn
    · exact List.Nodup.filter _ (nodesOf_nodup deps)
    · intro n _; simp
    · intro n hn; exact (List.mem_filter.mp hn).1
    · intro n hn p hp
      rw [hq0par n hn] at hp
      simp at hp
    · intro n hn hf
      rw [hfid (pOf deps n)] at hf
      refine Or.inr (List.mem_filter.mpr ⟨hn, ?_⟩)
      rw [buildIndeg_get deps HK n hn, hf]
      simp
    · intro x hx; simp at hx
    · intro c hc; simp at hc
  obtain ⟨doneF, heq, hFnodup, hFnodes, hFtopo, _, hFclosure⟩ :=
    kahnLoop_spec deps conf HK HP (degSum ind + q0.length) ind q0 [] inv0
      (le_refl _)
  rw [List.filter_nil] at heq
  have hnodesF : ∀ x, x ∈ nodesOf deps ↔ x ∈ doneF := by
    intro x
    constructor
    · intro hx
      by_contra hnx
      set U := (nodesOf deps).filter (fun m => ¬ m ∈ doneF) with hU
      have hxU : x ∈ U := List.mem_filter.mpr ⟨hx, by simpa using hnx⟩
      obtain ⟨u, huU, humin⟩ := exists_min_rank rank U (List.ne_nil_of_mem hxU)
      have hu := List.mem_filter.mp huU
      obtain ⟨p, hpp, hpF⟩ := hFclosure u hu.1 (by simpa using hu.2)
      have hpU : p ∈ U := List.mem_filter.mpr
        ⟨pOf_subset_nodes deps u p hpp, by simpa using hpF⟩
      have h1 := humin p hpU
      have h2 := hedge u p hpp
      omega
    · exact hFnodes x
  have hconf_sub : ∀ x ∈ conf, x ∈ doneF := fun x hx =>
    (hnodesF x).mp (keys_subset_nodes deps x ((hconf_iff x).mp hx))
  have hmem_order : ∀ x, x ∈ doneF.filter (fun x => x ∈ conf) ↔ x ∈ conf := by
    intro x
    rw [List.mem_filter]
    constructor
    · intro hx; simpa using hx.2
    · intro hx; exact ⟨hconf_sub x hx, by simpa⟩
  have hord_nodup : (doneF.filter (fun x => x ∈ conf)).Nodup :=
    List.Nodup.filter _ hFnodup
  have hlen : (doneF.filter (fun x => x ∈ conf)).length = conf.length :=
    ((List.perm_ext_iff_of_nodup hord_nodup hconf_nodup).mpr hmem_order).length_eq
  refine ⟨doneF.filter (fun x => x ∈ conf), ?_, hord_nodup, hmem_order, ?_⟩
  · simp only [topological_sort]
    rw [← hind, ← hq0, heq, if_pos hlen]
  · intro kv hkv p hp hpconf
    have hc_conf : kv.1 ∈ conf :=
      (hconf_iff kv.1).mpr (List.mem_map_of_mem Prod.fst hkv)
    have hpOf : p ∈ pOf deps kv.1 := by
      rw [pOf_eq_of_mem deps kv hkv HK]; exact hp
    have hcF : kv.1 ∈ doneF := (hnodesF kv.1).mp
      (keys_subset_nodes deps kv.1 (List.mem_map_of_mem Prod.fst hkv))
    have hsub := (hFtopo kv.1 hcF p hpOf).filter (fun x => decide (x ∈ conf))
    have hfs : ([p, kv.1].filter (fun x => x ∈ conf)) = [p, kv.1] := by
      simp [hpconf, hc_conf]
    rw [hfs] at hsub
    exact hsub

/-! ### Supporting lemmas: shape of the extracted dependency map -/

theorem keysOf_dset_of_mem {V : Type} (l : List (String × V)) (k : String) (v : V)
    (h : k ∈ l.map Prod.fst) : (dset l k v).map Prod.fst = l.map Prod.fst := by
  induction l with
  | nil => simp at h
  | cons kv rest ih =>
    obtain ⟨k', v'⟩ := kv
    by_cases hk : k' = k
    · subst hk; simp [dset]
    · simp only [List.map_cons, List.mem_cons] at h
      rcases h with h | h
      · exact absurd h.symm hk
      · simp [dset, hk, ih h]

theorem mem_dset {V : Type} (l : List (String × V)) (k : String) (v : V)
    (kv' : String × V) (h : kv' ∈ dset l k v) : kv' = (k, v) ∨ kv' ∈ l := by
  induction l with
  | nil => simpa [dset] using h
  | cons kv0 rest ih =>
    obtain ⟨k0, v0⟩ := kv0
    by_cases hk : k0 = k
    · subst hk
      have hd : dset ((k0, v0) :: rest) k0 v = (k0, v) :: rest := by simp [dset]
      rw [hd] at h
      rcases List.mem_cons.mp h with h1 | h1
      · exact Or.inl h1
      · exact Or.inr (List.mem_cons_of_mem _ h1)
    · have hd : dset ((k0, v0) :: rest) k v = (k0, v0) :: dset rest k v := by
        simp [dset, hk]
      rw [hd] at h
      rcases List.mem_cons.mp h with h1 | h1
      · exact Or.inr (List.mem_cons.mpr (Or.inl h1))
      · rcases ih h1 with h2 | h2
        · exact Or.inl h2
        · exact Or.inr (List.mem_cons_of_mem _ h2)

theorem depsAddParent_keys (d : List (String × List String)) (name : String)
    (p : Option String) (h : name ∈ keysOf d) :
    keysOf (depsAddParent d name p) = keysOf d := by
  cases p with
  | none => rfl
  | some parent => exact keysOf_dset_of_mem d name _ h

theorem depsAddParent_values (d : List (String × List String)) (name : String)
    (p : Option String) (hv : ∀ kv ∈ d, kv.2.Nodup) :
    ∀ kv ∈ depsAddParent d name p, kv.2.Nodup := by
  cases p with
  | none => exact hv
  | some parent =>
    intro kv hkv
    rcases mem_dset d name _ kv hkv with h | h
    · subst h
      refine insertSet_nodup _ _ ?_
      cases hd : dget d name with
      | none => simp
      | some l =>
        simp only [hd, Option.getD_some]
        exact hv (name, l) (dget_some_mem d name l hd)
    · exact hv kv h

theorem colsFold_keys (name : String) :
    ∀ (cols : List ColumnSpec) (d : List (String × List String)),
      name ∈ keysOf d →
      keysOf (cols.foldl (fun d c =>
        depsAddParent (depsAddParent d name (fkParentOf c.data))
          name (cffkParentOf c.data)) d) = keysOf d := by
  intro cols
  induction cols with
  | nil => intro d _; rfl
  | cons c cs ih =>
    intro d h
    simp only [List.foldl_cons]
    have h1 : keysOf (depsAddParent d name (fkParentOf c.data)) = keysOf d :=
      depsAddParent_keys d name _ h
    have h2 : keysOf (depsAddParent (depsAddParent d name (fkParentOf c.data))
        name (cffkParentOf c.data)) = keysOf d := by
      rw [depsAddParent_keys _ name _ (by rw [h1]; exact h), h1]
    rw [ih _ (by rw [h2]; exact h), h2]

theorem colsFold_values (name : String) :
    ∀ (cols : List ColumnSpec) (d : List (String × List String)),
      (∀ kv ∈ d, kv.2.Nodup) →
      ∀ kv ∈ cols.foldl (fun d c =>
        depsAddParent (depsAddParent d name (fkParentOf c.data))
          name (cffkParentOf c.data)) d, kv.2.Nodup := by
  intro cols
  induction cols with
  | nil => intro d h; exact h
  | cons c cs ih =>
    intro d h
    simp only [List.foldl_cons]
    exact ih _ (depsAddParent_values _ name _ (depsAddParent_values d name _ h))

theorem extract_fold_inv :
    ∀ (ts : List TableConfig) (acc : List (String × List String)),
      (keysOf acc).Nodup → (∀ kv ∈ acc, kv.2.Nodup) →
      ((keysOf (ts.foldl (fun deps t =>
          let deps1 :=
            if dget deps t.table_name = none then dset deps t.table_name [] else deps
          t.columns.foldl (fun d c =>
            depsAddParent (depsAddParent d t.table_name (fkParentOf c.data))
              t.table_name (cffkParentOf c.data)) deps1) acc)).Nodup ∧
       (∀ kv ∈ ts.foldl (fun deps t =>
          let deps1 :=
            if dget deps t.table_name = none then dset deps t.table_name [] else deps
          t.columns.foldl (fun d c =>
            depsAddParent (depsAddParent d t.table_name (fkParentOf c.data))
              t.table_name (cffkParentOf c.data)) deps1) acc, kv.2.Nodup) ∧
       (∀ x, x ∈ keysOf (ts.foldl (fun deps t =>
          let deps1 :=
            if dget deps t.table_name = none then dset deps t.table_name [] else deps
          t.columns.foldl (fun d c =>
            depsAddParent (depsAddParent d t.table_name (fkParentOf c.data))
              t.table_name (cffkParentOf c.data)) deps1) acc) ↔
          x ∈ keysOf acc ∨ ∃ t ∈ ts, t.table_name = x)) := by
  intro ts
  induction ts with
  | nil =>
    intro acc hk hv
    exact ⟨hk, hv, fun x => by simp⟩
  | cons t rest ih =>
    intro acc hk hv
    simp only [List.foldl_cons]
    set name := t.table_name with hname
    have hstep : ∃ deps1, (if dget acc name = none
          then dset acc name [] else acc) = deps1 ∧
        (keysOf deps1).Nodup ∧ (∀ kv ∈ deps1, kv.2.Nodup) ∧
        name ∈ keysOf deps1 ∧
        (∀ x, x ∈ keysOf deps1 ↔ x ∈ keysOf acc ∨ x = name) := by
      by_cases hdg : dget acc name = none
      · refine ⟨dset acc name [], by rw [if_pos hdg], ?_, ?_, ?_, ?_⟩
        · rw [show keysOf (dset acc name []) = keysOf acc ++ [name] from by
            rw [dset_of_fresh acc name [] hdg]; simp [keysOf]]
          refine List.nodup_append.mpr ⟨hk, List.nodup_singleton name, ?_⟩
          intro a ha hb
          simp only [List.mem_singleton] at hb
          rw [hb] at ha
          exact (dget_none_iff acc name).mp hdg ha
        · intro kv hkv
          rcases mem_dset acc name [] kv hkv with h | h
          · subst h; simp
          · exact hv kv h
        · rw [dset_of_fresh acc name [] hdg]
          simp [keysOf]
        · intro x
          rw [dset_of_fresh acc name [] hdg]
          simp [keysOf]
      · refine ⟨acc, by rw [if_neg hdg], hk, hv, ?_, ?_⟩
        · by_contra h
          exact hdg ((dget_none_iff acc name).mpr h)
        · intro x
          constructor
          · exact Or.inl
          · rintro (h | h)
            · exact h
            · subst h
              by_contra hc
              exact hdg ((dget_none_iff acc name).mpr hc)
    obtain ⟨deps1, hdeps1, hk1, hv1, hmem1, hiff1⟩ := hstep
    rw [hdeps1]
    have hkeys2 : keysOf (t.columns.foldl (fun d c =>
        depsAddParent (depsAddParent d name (fkParentOf c.data))
          name (cffkParentOf c.data)) deps1) = keysOf deps1 :=
      colsFold_keys name t.columns deps1 hmem1
    have hv2 : ∀ kv ∈ t.columns.foldl (fun d c =>
        depsAddParent (depsAddParent d name (fkParentOf c.data))
          name (cffkParentOf c.data)) deps1, kv.2.Nodup :=
      colsFold_values name t.columns deps1 hv1
    obtain ⟨ihk, ihv, ihiff⟩ := ih _ (by rw [hkeys2]; exact hk1) hv2
    refine ⟨ihk, ihv, ?_⟩
    intro x
    rw [ihiff x, hkeys2, hiff1 x]
    simp only [List.mem_cons]
    constructor
    · rintro ((h | h) | ⟨t', ht', hx⟩)
      · exact Or.inl h
      · exact Or.inr ⟨t, Or.inl rfl, h.symm⟩
      · exact Or.inr ⟨t', Or.inr ht', hx⟩
    · rintro (h | ⟨t', ht' | ht', hx⟩)
      · exact Or.inl (Or.inl h)
      · subst ht'; exact Or.inl (Or.inr hx.symm)
      · exact Or.inr ⟨t', ht', hx⟩

theorem configuredNames_fold_mem (ts : List TableConfig) :
    ∀ (acc : List String) (x : String),
      x ∈ ts.foldl (fun acc t => insertSet acc t.table_name) acc ↔
        x ∈ acc ∨ ∃ t ∈ ts, t.table_name = x := by
  induction ts with
  | nil => intro acc x; simp
  | cons t rest ih =>
    intro acc x
    simp only [List.foldl_cons]
    rw [ih (insertSet acc t.table_name) x, mem_insertSet]
    constructor
    · rintro ((h | h) | ⟨t', ht', hx⟩)
      · exact Or.inl h
      · exact Or.inr ⟨t, by simp, h.symm⟩
      · exact Or.inr ⟨t', by simp [ht'], hx⟩
    · rintro (h | ⟨t', ht', hx⟩)
      · exact Or.inl (Or.inl h)
      · rcases List.mem_cons.mp ht' with h1 | h1
        · subst h1; exact Or.inl (Or.inr hx.symm)
        · exact Or.inr ⟨t', h1, hx⟩

theorem configuredNames_nodup (ts : List TableConfig) :
    (configuredNames ts).Nodup := by
  unfold configuredNames
  suffices h : ∀ acc : List String, acc.Nodup →
      (ts.foldl (fun acc t => insertSet acc t.table_name) acc).Nodup by
    exact h [] (by simp)
  induction ts with
  | nil => intro acc h; exact h
  | cons t rest ih =>
    intro acc h
    exact ih (insertSet acc t.table_name) (insertSet_nodup acc t.table_name h)

theorem extract_keys_nodup (ts : List TableConfig) :
    (keysOf (extract_dependencies ts)).Nodup :=
  (extract_fold_inv ts [] (by simp [keysOf]) (by simp)).1

theorem extract_values_nodup (ts : List TableConfig) :
    ∀ kv ∈ extract_dependencies ts, kv.2.Nodup :=
  (extract_fold_inv ts [] (by simp [keysOf]) (by simp)).2.1

theorem extract_keys_iff (ts : List TableConfig) (x : String) :
    x ∈ keysOf (extract_dependencies ts) ↔ x ∈ configuredNames ts := by
  unfold extract_dependencies
  rw [(extract_fold_inv ts [] (by simp [keysOf]) (by simp)).2.2 x]
  unfold configuredNames
  rw [configuredNames_fold_mem]
  simp [keysOf]

theorem topological_sort_error (conf : List String)
    (deps : List (String × List String)) (missing : List String)
    (h : topological_sort conf deps = .error missing) :
    ∀ n ∈ missing, n ∈ conf := by
  simp only [topological_sort] at h
  split at h
  · exact absurd h (by simp)
  · injection h with h
    subst h
    intro n hn
    exact (List.mem_filter.mp hn).1

/-- C5 (amended). Dependency resolver correctness: for every table-config
list whose reference graph **as extracted by the code** is acyclic — the code
takes only the *first* `foreign_key(` and the *first* `copy_from_fk(`
occurrence per column, parses the argument list with Python `eval` (so a
parenthesised single string literal contributes a one-character parent via
string indexing), and edges from unparseable references do not exist — the
resolver returns an ordering of exactly the configured generators in which
every configured extracted parent precedes each of its children; references
that fail to parse contribute no edges.  (The original claim's graph of
*all* well-formed references is refuted by the counterexample: a column with
a malformed first reference and a well-formed second one contributes no
edge.) -/
theorem resolver_orders_parents_first (ts : List TableConfig)
    (hrank : ∃ rank : String → Nat,
      ∀ kv ∈ extract_dependencies ts, ∀ p ∈ kv.2, rank p < rank kv.1) :
    ∃ order, resolver ts = .ok order ∧ order.Nodup ∧
      (∀ x, x ∈ order ↔ x ∈ configuredNames ts) ∧
      (∀ kv ∈ extract_dependencies ts, ∀ p ∈ kv.2,
        p ∈ configuredNames ts → List.Sublist [p, kv.1] order) :=
  topological_sort_spec (extract_dependencies ts) (configuredNames ts)
    (extract_keys_nodup ts) (extract_values_nodup ts)
    (configuredNames_nodup ts)
    (fun x => (extract_keys_iff ts x).symm) hrank

/-- A well-formed two-table scenario: `b` references parent `a`. -/
def w5data : String := "foreign_key(\"a\", \"k\")"

def w5ts : List TableConfig :=
  [{ table_name := "b", columns := [{ column_name := "f", data := w5data }] },
   { table_name := "a" }]

theorem resolver_orders_parents_first_witness :
    (∃ rank : String → Nat,
      ∀ kv ∈ extract_dependencies w5ts, ∀ p ∈ kv.2, rank p < rank kv.1) ∧
    (∃ order, resolver w5ts = .ok order ∧ order.Nodup ∧
      (∀ x, x ∈ order ↔ x ∈ configuredNames w5ts) ∧
      (∀ kv ∈ extract_dependencies w5ts, ∀ p ∈ kv.2,
        p ∈ configuredNames w5ts → List.Sublist [p, kv.1] order)) :=
  ⟨⟨fun s => if s = "b" then 1 else 0, by decide⟩,
    resolver_orders_parents_first w5ts
      ⟨fun s => if s = "b" then 1 else 0, by decide⟩⟩

/-- C10. Unconfigured parents are tolerated: a `foreign_key` / `copy_from_fk`
reference naming a parent table that is not in the configuration does not
make dependency ordering fail — the unknown parent appears as a
zero-in-degree graph node, is omitted from the returned order, its children
are still ordered and included, and the cyclic-dependency exception names
only configured tables (it is raised only when some configured table cannot
be ordered; under an acyclic extracted graph the sort succeeds). -/
theorem unconfigured_parent_tolerated (ts : List TableConfig) (p : String)
    (hp_unconf : p ∉ configuredNames ts)
    (hp_parent : ∃ kv ∈ extract_dependencies ts, p ∈ kv.2)
    (hrank : ∃ rank : String → Nat,
      ∀ kv ∈ extract_dependencies ts, ∀ q ∈ kv.2, rank q < rank kv.1) :
    dget (buildIndeg (extract_dependencies ts)) p = some 0 ∧
    (∃ order, resolver ts = .ok order ∧ p ∉ order ∧
      (∀ x, x ∈ order ↔ x ∈ configuredNames ts)) ∧
    (∀ (conf : List String) (deps : List (String × List String))
        (missing : List String),
      topological_sort conf deps = .error missing → ∀ n ∈ missing, n ∈ conf) := by
  have hpk : p ∉ keysOf (extract_dependencies ts) := fun h =>
    hp_unconf ((extract_keys_iff ts p).mp h)
  have hpn : p ∈ nodesOf (extract_dependencies ts) :=
    (mem_nodesOf (extract_dependencies ts) p).mpr (Or.inr hp_parent)
  refine ⟨?_, ?_, topological_sort_error⟩
  · rw [buildIndeg_get (extract_dependencies ts) (extract_keys_nodup ts) p hpn]
    have hpo : pOf (extract_dependencies ts) p = [] := by
      simp [pOf, (dget_none_iff (extract_dependencies ts) p).mpr hpk]
    simp [hpo]
  · obtain ⟨order, hok, hnodup, hmem, hprec⟩ :=
      topological_sort_spec (extract_dependencies ts) (configuredNames ts)
        (extract_keys_nodup ts) (extract_values_nodup ts)
        (configuredNames_nodup ts)
        (fun x => (extract_keys_iff ts x).symm) hrank
    exact ⟨order, hok, fun h => hp_unconf ((hmem p).mp h), hmem⟩

/-- `b` references the unconfigured parent `x`. -/
def w10data : String := "foreign_key(\"x\", \"k\")"

def w10ts : List TableConfig :=
  [{ table_name := "b", columns := [{ column_name := "f", data := w10data }] }]

theorem unconfigured_parent_tolerated_witness :
    ("x" ∉ configuredNames w10ts ∧
      (∃ kv ∈ extract_dependencies w10ts, "x" ∈ kv.2) ∧
      (∃ rank : String → Nat,
        ∀ kv ∈ extract_dependencies w10ts, ∀ q ∈ kv.2, rank q < rank kv.1)) ∧
    (dget (buildIndeg (extract_dependencies w10ts)) "x" = some 0 ∧
      (∃ order, resolver w10ts = .ok order ∧ "x" ∉ order ∧
        (∀ x, x ∈ order ↔ x ∈ configuredNames w10ts)) ∧
      (∀ (conf : List String) (deps : List (String × List String))
          (missing : List String),
        topological_sort conf deps = .error missing → ∀ n ∈ missing, n ∈ conf)) :=
  ⟨⟨by decide, by decide, ⟨fun s => if s = "b" then 1 else 0, by decide⟩⟩,
    unconfigured_parent_tolerated w10ts "x" (by decide) (by decide)
      ⟨fun s => if s = "b" then 1 else 0, by decide⟩⟩

end TF
